import Mathlib

/-!
Nested Markdown linting: extraction, line mapping and aggregation.

A verification development for `.github/scripts/lint-nested-markdown.js`.

The script parses a Markdown document with markdown-it, collects every fenced
block tagged `markdown` / `md`, re-parses the content of each such block to find
deeper ones, lints every non-blank block with markdownlint and prints the
findings with line numbers mapped back to the outer file.

Conventions of the embedding:

* JavaScript strings are `String`, JavaScript numbers that hold line numbers,
  depths and indices are `Nat`.
* The two libraries are collaborators of the script and enter as arguments:
  `parse` stands for `md.parse(content, {})`, `lint` for markdownlint's
  promise API.  File access (`fs.readFileSync`) and `path.relative` enter the
  same way.
* A thrown exception / rejected promise is an `Except.error` that carries the
  message of the exception.
* The JavaScript engine enters through its two limits that the script can
  reach: the room of the call stack for nested calls of
  `extractMarkdownFencesRecursive`, and the number of arguments a call
  `push(...xs)` accepts.  Exceeding either throws a `RangeError`.  The recursion
  of the embedding descends on the stack room, so extraction always ends: with
  a block list or with that exception.
-/

set_option autoImplicit false

namespace NestedMarkdown

/-! ## JavaScript string primitives used by the script -/

/-- White space and line terminators removed by `String.prototype.trim`
(ECMAScript `WhiteSpace` and `LineTerminator` code points). -/
def isJsWhiteSpace (c : Char) : Bool :=
  let n := c.toNat
  n == 0x09 || n == 0x0A || n == 0x0B || n == 0x0C || n == 0x0D || n == 0x20 ||
  n == 0xA0 || n == 0x1680 || (0x2000 ≤ n && n ≤ 0x200A) || n == 0x2028 ||
  n == 0x2029 || n == 0x202F || n == 0x205F || n == 0x3000 || n == 0xFEFF

/-- The method `String.prototype.trim`: strips white space from both ends. -/
def jsTrim (s : String) : String :=
  String.mk ((((s.data.dropWhile isJsWhiteSpace).reverse).dropWhile isJsWhiteSpace).reverse)

/-- Lower-casing of one character.  `String.prototype.toLowerCase` is only ever
compared with the ASCII words `markdown` and `md` in the script; the characters
whose lower case is an ASCII letter are `A`..`Z` and the Kelvin sign U+212A
(lower case `k`).  Every other character is left as it is: its real lower case
is never one of the letters of the two words, so the comparison is unaffected. -/
def jsLowerChar (c : Char) : Char :=
  if 0x41 ≤ c.toNat ∧ c.toNat ≤ 0x5A then Char.ofNat (c.toNat + 32)
  else if c.toNat = 0x212A then 'k'
  else c

/-- The method `String.prototype.toLowerCase` (see `jsLowerChar`). -/
def jsToLowerCase (s : String) : String :=
  String.mk (s.data.map jsLowerChar)

/-- The test `s.trim().length > 0`. -/
def hasNonBlankText (s : String) : Bool :=
  decide ((jsTrim s).length > 0)

/-! ## Data model -/

/-- A markdown-it token, restricted to the fields the script reads. -/
structure Token where
  /-- Field `token.type`. -/
  type : String
  /-- Field `token.info`: the fence info string. -/
  info : String
  /-- Field `token.content`. -/
  content : String
  /-- Field `token.map`: `[startLine, endLine]`, zero-based, or `null`. -/
  map : Option (Nat × Nat)
deriving DecidableEq, Repr

/-- The object `blockInfo` built at lines 115-122. -/
structure Block where
  content : String
  line : Nat
  info : String
  filePath : String
  depth : Nat
  parentPath : String
deriving DecidableEq, Repr

/-- The condition of lines 108-110: a fence whose info string, trimmed and
lower-cased, is `markdown` or `md`. -/
def isMarkdownFence (token : Token) : Bool :=
  token.type == "fence" &&
    (jsToLowerCase (jsTrim token.info) == "markdown" ||
     jsToLowerCase (jsTrim token.info) == "md")

/-- The expression `token.map ? token.map[0] + 1 : 0` of line 112. -/
def fenceLine (token : Token) : Nat :=
  match token.map with
  | some m => m.1 + 1
  | none => 0

/-- Line 112: `blockLine = baseLine + (token.map ? token.map[0] + 1 : 0)`. -/
def blockLineOf (baseLine : Nat) (token : Token) : Nat :=
  baseLine + fenceLine token

/-- Line 113: the breadcrumb of a block. -/
def blockPathOf (parentPath : String) (blockLine : Nat) : String :=
  if parentPath ≠ "" then parentPath ++ " > block at line " ++ toString blockLine
  else "line " ++ toString blockLine

/-- Lines 115-122: the block record of a matching fence. -/
def blockInfoOf (filePath : String) (baseLine depth : Nat) (parentPath : String)
    (token : Token) : Block :=
  { content := token.content
    line := blockLineOf baseLine token
    info := jsTrim token.info
    filePath := filePath
    depth := depth
    parentPath := blockPathOf parentPath (blockLineOf baseLine token) }

/-! ## Extraction -/

/-- The limits of the JavaScript engine that the script can reach. -/
structure Engine where
  /-- The number of nested calls of `extractMarkdownFencesRecursive` the call
  stack has room for when `extractMarkdownFences` calls it. -/
  stackDepth : Nat
  /-- Whether a call `push(...xs)` succeeds: `spreadFits room count` for `count`
  arguments when the stack has room for `room` more nested calls (the arguments
  of the call are put on the stack). -/
  spreadFits : Nat → Nat → Bool

/-- The message of the `RangeError` thrown when the call stack is exhausted or
an argument list is too long. -/
def rangeError : String := "Maximum call stack size exceeded"

/-- The `for` loop of lines 104-138 over the token stream.  `recurse` is the
recursive call of lines 128-134 (content, filePath, baseLine, depth,
parentPath); `fits` tells whether `blocks.push(...nestedBlocks)` of line 135
succeeds for a given number of nested blocks; `blocks.push` becomes list
construction.  An exception ends the loop at the token that raised it. -/
def extractTokens (fits : Nat → Bool)
    (recurse : String → String → Nat → Nat → String → Except String (List Block))
    (filePath : String) (baseLine depth : Nat) (parentPath : String) :
    List Token → Except String (List Block)
  | [] => Except.ok []
  | token :: rest =>
    if isMarkdownFence token then
      let blockLine := blockLineOf baseLine token
      let blockPath := blockPathOf parentPath blockLine
      let blockInfo := blockInfoOf filePath baseLine depth parentPath token
      if hasNonBlankText token.content then
        match recurse token.content filePath blockLine (depth + 1) blockPath with
        | Except.error message => Except.error message
        | Except.ok nestedBlocks =>
          if fits nestedBlocks.length then
            match extractTokens fits recurse filePath baseLine depth parentPath rest with
            | Except.error message => Except.error message
            | Except.ok more => Except.ok (blockInfo :: (nestedBlocks ++ more))
          else Except.error rangeError
      else
        match extractTokens fits recurse filePath baseLine depth parentPath rest with
        | Except.error message => Except.error message
        | Except.ok more => Except.ok (blockInfo :: more)
    else extractTokens fits recurse filePath baseLine depth parentPath rest

/-- The function `extractMarkdownFencesRecursive` (lines 100-141).  The first
number is the room of the call stack: a call for which no room is left throws,
and each nested call has one less. -/
def extractMarkdownFencesRecursive (parse : String → List Token)
    (spreadFits : Nat → Nat → Bool) :
    Nat → String → String → Nat → Nat → String → Except String (List Block)
  | 0, _, _, _, _, _ => Except.error rangeError
  | room + 1, content, filePath, baseLine, depth, parentPath =>
    extractTokens (spreadFits room) (extractMarkdownFencesRecursive parse spreadFits room)
      filePath baseLine depth parentPath (parse content)

/-- The function `extractMarkdownFences` (lines 148-157); `readFile` is
`fs.readFileSync(filePath, 'utf8')`, `none` when it throws.  The `try` of lines
150-155 covers the read only: an exception of the extraction is passed on. -/
def extractMarkdownFences (parse : String → List Token) (readFile : String → Option String)
    (engine : Engine) (filePath : String) : Except String (List Block) :=
  match readFile filePath with
  | none => Except.ok []
  | some content =>
    extractMarkdownFencesRecursive parse engine.spreadFits engine.stackDepth content filePath
      0 0 ""

/-! ## Rule configuration and the checker -/

/-- A value of the rule configuration object: `false` / `true`, or any other
JSON value (kept as its text). -/
inductive ConfigValue where
  | bool (b : Bool)
  | setting (json : String)
deriving DecidableEq, Repr

/-- A configuration object: property names with their values. -/
abbrev Config := List (String × ConfigValue)

/-- Property read `config[key]`. -/
def Config.get (config : Config) (key : String) : Option ConfigValue :=
  List.lookup key config

/-- Property write as done by an object literal: an existing property takes the
new value, a new one is added. -/
def Config.set (key : String) (value : ConfigValue) : Config → Config
  | [] => [(key, value)]
  | (k, v) :: rest =>
    if k = key then (key, value) :: rest else (k, v) :: Config.set key value rest

/-- Lines 171-175: `{ ...config, 'MD041': false, 'MD051': false }`. -/
def nestedConfigOf (config : Config) : Config :=
  Config.set "MD051" (ConfigValue.bool false) (Config.set "MD041" (ConfigValue.bool false) config)

/-- One finding of markdownlint, restricted to the fields the script reads. -/
structure LintError where
  lineNumber : Nat
  errorRange : Option (Nat × Nat)
  ruleNames : List String
  ruleDescription : String
  errorDetail : Option String
deriving DecidableEq, Repr

/-- The options object of lines 177-182. -/
structure LintOptions where
  strings : List (String × String)
  config : Config
deriving DecidableEq, Repr

/-- The result object of markdownlint: findings per input name. -/
abbrev LintResults := List (String × List LintError)

/-- The checker `lint` of markdownlint/promise; a rejection is an `error`. -/
abbrev Checker := LintOptions → Except String LintResults

/-- Lines 177-182: the options handed to the checker. -/
def lintOptionsOf (content : String) (config : Config) : LintOptions :=
  { strings := [("content", content)], config := nestedConfigOf config }

/-- The function `lintMarkdownContent` (lines 165-185). -/
def lintMarkdownContent (lint : Checker) (content : String) (config : Config) :
    Except String LintResults :=
  lint (lintOptionsOf content config)

/-! ## Reporting -/

/-- The object pushed to `allResults` at lines 293-301. -/
structure BlockResult where
  filePath : String
  line : Nat
  info : String
  blockIndex : Nat
  depth : Nat
  parentPath : String
  errors : List LintError
deriving DecidableEq, Repr

/-- ANSI colour codes (lines 33-40). -/
def colors.reset : String := "\x1b[0m"
def colors.red : String := "\x1b[31m"
def colors.yellow : String := "\x1b[33m"
def colors.green : String := "\x1b[32m"
def colors.cyan : String := "\x1b[36m"
def colors.bold : String := "\x1b[1m"

/-- Line 219: `actualLineNumber = result.line + error.lineNumber`. -/
def actualLineNumber (result : BlockResult) (error : LintError) : Nat :=
  result.line + error.lineNumber

/-- Lines 219-224: the console lines printed for one finding. -/
def errorLines (result : BlockResult) (error : LintError) : List String :=
  let nestedLineInfo :=
    if result.depth > 0 then " (nested line " ++ toString error.lineNumber ++ ")" else ""
  let column := match error.errorRange with
    | some r => r.1
    | none => 1
  let first := "    " ++ toString (actualLineNumber result error) ++ ":" ++ toString column ++
    nestedLineInfo ++ " " ++ colors.red ++ String.intercalate "/" error.ruleNames ++
    colors.reset ++ " " ++ error.ruleDescription
  match error.errorDetail with
  | some detail =>
    if detail ≠ "" then [first, "      " ++ colors.yellow ++ detail ++ colors.reset] else [first]
  | none => [first]

/-- Lines 209-212: the two heading lines printed for a reported block. -/
def resultHeaderLines (result : BlockResult) : List String :=
  let depthIndicator :=
    if result.depth > 0 then
      " " ++ colors.yellow ++ "[depth " ++ toString result.depth ++ "]" ++ colors.reset
    else ""
  let pathInfo := if result.parentPath ≠ "" then " (" ++ result.parentPath ++ ")" else ""
  [ colors.cyan ++ "File:" ++ colors.reset ++ " " ++ result.filePath,
    "  " ++ colors.yellow ++ "Code fence at line " ++ toString result.line ++ depthIndicator ++
      " (" ++ result.info ++ " block #" ++ toString result.blockIndex ++ ")" ++ pathInfo ++ ":" ++
      colors.reset ]

/-- The loop of lines 202-228; the state is the console output so far and
`hasErrors`. -/
def displayLoop : List BlockResult → List String × Bool → List String × Bool
  | [], acc => acc
  | result :: rest, acc =>
    if result.errors.length = 0 then displayLoop rest acc
    else
      displayLoop rest
        (acc.1 ++ resultHeaderLines result ++ (result.errors.map (errorLines result)).flatten ++ [""],
         true)

/-- The function `displayResults` (lines 192-231): console lines and the
returned `hasErrors`. -/
def displayResults (allResults : List BlockResult) : List String × Bool :=
  if allResults.length = 0 then
    ([colors.green ++ "✓" ++ colors.reset ++ " No issues found in nested Markdown code fences"],
     false)
  else
    displayLoop allResults
      (["\n" ++ colors.bold ++ colors.red ++ "Nested Markdown Linting Issues:" ++ colors.reset ++
        "\n"], false)

/-! ## The driver -/

/-- The collaborators of `main`. -/
structure Env where
  /-- The call `md.parse(content, {})`. -/
  parse : String → List Token
  /-- The call `fs.readFileSync(file, 'utf8')`; `none` when it throws. -/
  readFile : String → Option String
  /-- The call `path.relative(REPO_ROOT, file)`. -/
  relative : String → String
  /-- The checker of markdownlint. -/
  lint : Checker

/-- The variables of `main` that the file loop updates, together with the list
of option objects handed to the checker so far (a record of the calls made, not
a variable of the script). -/
structure RunState where
  totalBlocks : Nat
  allResults : List BlockResult
  checked : List LintOptions
deriving DecidableEq, Repr

/-- An exception on its way to the `catch` of lines 320-324, with the state of
the run at the moment it was thrown. -/
structure Thrown where
  message : String
  state : RunState
deriving DecidableEq, Repr

/-- Line 290: `lintResults.content || []`. -/
def errorsOf (lintResults : LintResults) : List LintError :=
  (List.lookup "content" lintResults).getD []

/-- Lines 293-301: the record pushed to `allResults` for the block at position
`index` of the file's block list. -/
def blockResultOf (relativePath : String) (index : Nat) (block : Block)
    (errors : List LintError) : BlockResult :=
  { filePath := relativePath
    line := block.line
    info := block.info
    blockIndex := index + 1
    depth := block.depth
    parentPath := block.parentPath
    errors := errors }

/-- The block loop of lines 281-303, from position `index` on. -/
def lintBlocks (lint : Checker) (config : Config) (relativePath : String) :
    Nat → List Block → RunState → Except Thrown RunState
  | _, [], st => Except.ok st
  | index, block :: rest, st =>
    if block.content = "" ∨ (jsTrim block.content).length = 0 then
      lintBlocks lint config relativePath (index + 1) rest st
    else
      let st1 := { st with checked := st.checked ++ [lintOptionsOf block.content config] }
      match lintMarkdownContent lint block.content config with
      | Except.error message => Except.error { message := message, state := st1 }
      | Except.ok lintResults =>
        let errors := errorsOf lintResults
        if errors.length > 0 then
          lintBlocks lint config relativePath (index + 1) rest
            { st1 with
              allResults := st1.allResults ++ [blockResultOf relativePath index block errors] }
        else lintBlocks lint config relativePath (index + 1) rest st1

/-- The file loop of lines 272-305.  An exception of the extraction or of the
checker leaves the loop. -/
def processFiles (env : Env) (engine : Engine) (config : Config) :
    List String → RunState → Except Thrown RunState
  | [], st => Except.ok st
  | file :: rest, st =>
    match extractMarkdownFences env.parse env.readFile engine file with
    | Except.error message => Except.error { message := message, state := st }
    | Except.ok blocks =>
      if blocks.length > 0 then
        match lintBlocks env.lint config (env.relative file) 0 blocks
            { st with totalBlocks := st.totalBlocks + blocks.length } with
        | Except.error thrown => Except.error thrown
        | Except.ok st1 => processFiles env engine config rest st1
      else processFiles env engine config rest st

/-- How a run of `main` ends. -/
structure RunOutcome where
  /-- The argument of `process.exit`. -/
  exitCode : Nat
  /-- Output and return value of `displayResults`, when it was called. -/
  displayed : Option (List String × Bool)
  /-- The message of the exception caught at line 320, if any. -/
  caught : Option String
  /-- The variables of the run when it ended. -/
  state : RunState
deriving DecidableEq, Repr

/-- The function `main` (lines 236-325) from the file loop on; the rule
configuration (line 241) and the list of files (lines 244-266) are arguments.
Of the console output only that of `displayResults` is kept; the progress and
summary lines that `main` prints itself are left out. -/
def main (env : Env) (engine : Engine) (config : Config) (files : List String) :
    RunOutcome :=
  match processFiles env engine config files
      { totalBlocks := 0, allResults := [], checked := [] } with
  | Except.error thrown =>
    { exitCode := 1, displayed := none, caught := some thrown.message,
      state := thrown.state }
  | Except.ok st =>
    let shown := displayResults st.allResults
    { exitCode := if shown.2 then 1 else 0, displayed := some shown, caught := none,
      state := st }

/-! ## Sample documents

Token streams as markdown-it returns them for a few small documents, checkers
with fixed answers, and an engine with limits of the order of those of V8. -/

/-- The content of the inner fence of `sampleRoot`. -/
def sampleInner : String := "bad line \n"

/-- The content of the outer fence of `sampleRoot`: a blank line, then an `md`
fence opening on its line 2. -/
def sampleOuter : String := "\n```md\nbad line \n```\n"

/-- A root file whose line 2 opens a `markdown` fence. -/
def sampleRoot : String := "# Title\n````markdown\n\n```md\nbad line \n```\n````\n"

/-- A root file with a blank `md` fence on line 1 and a second `md` fence on
line 4. -/
def sampleBlankFirst : String := "```md\n\n```\n```md\nbad line \n```\n"

/-- A root file with five fences on lines 1, 4, 7, 10 and 13, tagged
` MarkDown ` (with blanks around), `MD`, `js`, `markdownx` and nothing. -/
def sampleMixed : String :=
  "``` MarkDown \none\n```\n```MD\ntwo\n```\n```js\nthree\n```\n```markdownx\nfour\n```\n```\nfive\n```\n"

/-- The token stream of a one-line paragraph. -/
def paragraphTokens (text : String) : List Token :=
  [ { type := "paragraph_open", info := "", content := "", map := some (0, 1) },
    { type := "inline", info := "", content := text, map := some (0, 1) },
    { type := "paragraph_close", info := "", content := "", map := none } ]

/-- The token streams of the sample documents. -/
def sampleParse (s : String) : List Token :=
  if s = sampleRoot then
    [ { type := "heading_open", info := "", content := "", map := some (0, 1) },
      { type := "inline", info := "", content := "Title", map := some (0, 1) },
      { type := "heading_close", info := "", content := "", map := none },
      { type := "fence", info := "markdown", content := sampleOuter, map := some (1, 7) } ]
  else if s = sampleOuter then
    [ { type := "fence", info := "md", content := sampleInner, map := some (1, 4) } ]
  else if s = sampleBlankFirst then
    [ { type := "fence", info := "md", content := "\n", map := some (0, 3) },
      { type := "fence", info := "md", content := sampleInner, map := some (3, 6) } ]
  else if s = sampleMixed then
    [ { type := "fence", info := " MarkDown ", content := "one\n", map := some (0, 3) },
      { type := "fence", info := "MD", content := "two\n", map := some (3, 6) },
      { type := "fence", info := "js", content := "three\n", map := some (6, 9) },
      { type := "fence", info := "markdownx", content := "four\n", map := some (9, 12) },
      { type := "fence", info := "", content := "five\n", map := some (12, 15) } ]
  else if s = sampleInner then paragraphTokens "bad line"
  else if s = "one\n" then paragraphTokens "one"
  else if s = "two\n" then paragraphTokens "two"
  else []

/-- The finding reported for `sampleInner`. -/
def sampleError : LintError :=
  { lineNumber := 1
    errorRange := some (9, 1)
    ruleNames := ["MD009", "no-trailing-spaces"]
    ruleDescription := "Trailing spaces"
    errorDetail := some "Expected: 0 or 2; Actual: 1" }

/-- A checker that reports `sampleError` for `sampleInner` and nothing else. -/
def sampleLint : Checker := fun options =>
  Except.ok (options.strings.map fun p => (p.1, if p.2 = sampleInner then [sampleError] else []))

/-- A checker that rejects `sampleInner` and accepts everything else. -/
def throwingLint : Checker := fun options =>
  if options.strings.any (fun p => p.2 = sampleInner) then Except.error "checker failed"
  else Except.ok (options.strings.map fun p => (p.1, []))

/-- A checker that rejects `sampleOuter` and reports `sampleError` for
`sampleInner`. -/
def outerThrowingLint : Checker := fun options =>
  if options.strings.any (fun p => p.2 = sampleOuter) then Except.error "checker failed"
  else sampleLint options

/-- A checker that reports one finding for every text. -/
def strictLint : Checker := fun options =>
  Except.ok (options.strings.map fun p => (p.1, [sampleError]))

/-- The files of the sample runs. -/
def sampleFiles (path : String) : Option String :=
  if path = "/repo/a.md" then some sampleRoot
  else if path = "/repo/b.md" then some sampleBlankFirst
  else if path = "/repo/c.md" then some sampleMixed
  else none

/-- The sample environment. -/
def sampleEnv (lint : Checker) : Env :=
  { parse := sampleParse, readFile := sampleFiles, relative := fun p => String.mk (p.data.drop 6),
    lint := lint }

/-- The block of the outer fence of `sampleRoot` in the file `/repo/a.md`. -/
def sampleOuterBlock : Block :=
  { content := sampleOuter, line := 2, info := "markdown", filePath := "/repo/a.md",
    depth := 0, parentPath := "line 2" }

/-- The block of the inner fence of `sampleRoot` in the file `/repo/a.md`. -/
def sampleInnerBlock : Block :=
  { content := sampleInner, line := 4, info := "md", filePath := "/repo/a.md",
    depth := 1, parentPath := "line 2 > block at line 4" }

/-- The blocks of the two fences of `sampleBlankFirst` in the file `/repo/b.md`. -/
def sampleBlankBlocks : List Block :=
  [ { content := "\n", line := 1, info := "md", filePath := "/repo/b.md", depth := 0,
      parentPath := "line 1" },
    { content := sampleInner, line := 4, info := "md", filePath := "/repo/b.md", depth := 0,
      parentPath := "line 4" } ]

/-- The blocks of the two matching fences of `sampleMixed` in the file
`/repo/c.md`. -/
def sampleMixedBlocks : List Block :=
  [ { content := "one\n", line := 1, info := "MarkDown", filePath := "/repo/c.md", depth := 0,
      parentPath := "line 1" },
    { content := "two\n", line := 4, info := "MD", filePath := "/repo/c.md", depth := 0,
      parentPath := "line 4" } ]

/-- An engine with stack room for 10000 nested calls that accepts up to 120000
arguments. -/
def sampleEngine : Engine :=
  { stackDepth := 10000, spreadFits := fun _ count => decide (count ≤ 120000) }

/-! ## A family of deeply nested documents

`deepDoc (n + 1)` is a fence of `n + 3` backticks tagged `md` around
`deepDoc n`; a fence closes only at a run of at least as many backticks as
opened it, so the inner, shorter fences stay inside its content. -/

/-- The backtick. -/
def tick : Char := Char.ofNat 96

/-- A run of `n` backticks. -/
def ticks (n : Nat) : String := String.mk (List.replicate n tick)

/-- The document with `n` fences inside one another around the line `x`. -/
def deepDoc : Nat → String
  | 0 => "x\n"
  | n + 1 => ticks (n + 3) ++ "md\n" ++ deepDoc n ++ ticks (n + 3) ++ "\n"

/-- The number of backticks a text starts with. -/
def leadingTicks (s : String) : Nat := (s.data.takeWhile (fun c => c == tick)).length

/-- The fence token of `deepDoc (n + 1)`: it spans the whole document, lines 0
to `2 * n + 3`, and its content is `deepDoc n`. -/
def deepToken (n : Nat) : Token :=
  { type := "fence", info := "md", content := deepDoc n, map := some (0, 2 * n + 3) }

/-- The token streams of the documents `deepDoc n`. -/
def deepParse (s : String) : List Token :=
  if 3 ≤ leadingTicks s ∧ s = deepDoc (leadingTicks s - 2) then [deepToken (leadingTicks s - 3)]
  else if s = "x\n" then paragraphTokens "x"
  else []

/-- Two files: one with 10000 fences inside one another, one with a single
fence. -/
def deepFiles (path : String) : Option String :=
  if path = "/repo/deep.md" then some (deepDoc 10000)
  else if path = "/repo/flat.md" then some (deepDoc 1)
  else none

/-- The environment of the deeply nested files, with the checker that reports a
finding for every text. -/
def deepEnv : Env :=
  { parse := deepParse, readFile := deepFiles, relative := fun p => String.mk (p.data.drop 6),
    lint := strictLint }

/-! ## Specification vocabulary -/

/-- The measure `size` gets smaller from a text to the content of each matching,
non-blank fence found in it: the recursion of the extraction descends along
it. -/
def NestingDecreases (parse : String → List Token) (size : String → Nat) : Prop :=
  ∀ s t, t ∈ parse s → isMarkdownFence t = true → hasNonBlankText t.content = true →
    size t.content < size s

/-- A chain of nested matching fences below a token stream: `FenceChain parse ts
chain t` says that `t` is a matching fence reached from the stream `ts` through
the matching, non-blank fences `chain` (outermost first), each one found in the
token stream of the content of the one before. -/
inductive FenceChain (parse : String → List Token) : List Token → List Token → Token → Prop
  | direct {ts : List Token} {t : Token} :
      t ∈ ts → isMarkdownFence t = true → FenceChain parse ts [] t
  | inside {ts : List Token} {t0 : Token} {chain : List Token} {t : Token} :
      t0 ∈ ts → isMarkdownFence t0 = true → hasNonBlankText t0.content = true →
      FenceChain parse (parse t0.content) chain t → FenceChain parse ts (t0 :: chain) t

/-- The block record of the fence `t` reached through `chain`, when extraction
of the outermost document starts with `baseLine`, `depth` and `parentPath`. -/
def blockAt (filePath : String) : Nat → Nat → String → List Token → Token → Block
  | baseLine, depth, parentPath, [], t => blockInfoOf filePath baseLine depth parentPath t
  | baseLine, depth, parentPath, t0 :: chain, t =>
    blockAt filePath (blockLineOf baseLine t0) (depth + 1)
      (blockPathOf parentPath (blockLineOf baseLine t0)) chain t

/-- The list `sub` is what extraction of the content of block `B` returns when
it is started with the line, depth and path of `B` (on an engine with room for
it); nothing for blank content. -/
def IsExtractionOf (parse : String → List Token) (B : Block) (sub : List Block) : Prop :=
  (hasNonBlankText B.content = true →
    ∃ spreadFits room, extractMarkdownFencesRecursive parse spreadFits room B.content
      B.filePath B.line (B.depth + 1) B.parentPath = Except.ok sub) ∧
  (hasNonBlankText B.content = false → sub = [])

/-- Depth-first pre-order of a block list: every block is directly followed by
the complete extraction of its own content, all of it deeper than the block,
and what comes after that run starts with a block that is not deeper. -/
def PreOrder (parse : String → List Token) (r : List Block) : Prop :=
  ∀ pre B post, r = pre ++ B :: post →
    ∃ sub rest, post = sub ++ rest ∧ IsExtractionOf parse B sub ∧
      (∀ C ∈ sub, B.depth < C.depth) ∧ (∀ C, rest.head? = some C → C.depth ≤ B.depth)

/-- The list `r` is made of the blocks of the matching fences of the stream
`ts`, in stream order, each directly followed by the extraction of its own
content. -/
def BlocksOfStream (parse : String → List Token) (filePath : String) (baseLine depth : Nat)
    (parentPath : String) (ts : List Token) (r : List Block) : Prop :=
  ∃ subs : List (List Block),
    List.Forall₂ (fun t sub => IsExtractionOf parse (blockInfoOf filePath baseLine depth
      parentPath t) sub) (ts.filter isMarkdownFence) subs ∧
    r = (List.zipWith (fun t sub => blockInfoOf filePath baseLine depth parentPath t :: sub)
      (ts.filter isMarkdownFence) subs).flatten

/-- What a matching fence `t` contributes after its own block in the token
loop: the list `nested` returned by the recursive call, which the engine must
accept as an argument list, or nothing when the content is blank. -/
def NestedOf (fits : Nat → Bool)
    (recurse : String → String → Nat → Nat → String → Except String (List Block))
    (filePath : String) (baseLine depth : Nat) (parentPath : String) (t : Token)
    (nested : List Block) : Prop :=
  (hasNonBlankText t.content = true →
    recurse t.content filePath (blockLineOf baseLine t) (depth + 1)
      (blockPathOf parentPath (blockLineOf baseLine t)) = Except.ok nested ∧
    fits nested.length = true) ∧
  (hasNonBlankText t.content = false → nested = [])

/-- The record `res` is the one pushed for some non-blank block of `blocks`, at
its position in that list, for which the checker returned at least one finding. -/
def FromBlock (lint : Checker) (config : Config) (relativePath : String)
    (blocks : List Block) (res : BlockResult) : Prop :=
  ∃ i B lr, blocks[i]? = some B ∧ hasNonBlankText B.content = true ∧
    lint (lintOptionsOf B.content config) = Except.ok lr ∧ 0 < (errorsOf lr).length ∧
    res = blockResultOf relativePath i B (errorsOf lr)

/-- The record `res` comes from a block of one of the files. -/
def FromFiles (env : Env) (engine : Engine) (config : Config) (files : List String)
    (res : BlockResult) : Prop :=
  ∃ file ∈ files, ∃ blocks,
    extractMarkdownFences env.parse env.readFile engine file = Except.ok blocks ∧
    FromBlock env.lint config (env.relative file) blocks res

/-- Every extraction of the files returns and the checker returns for every
non-blank block: nothing throws in a run over the files. -/
def NothingThrows (env : Env) (engine : Engine) (config : Config) (files : List String) :
    Prop :=
  ∀ file ∈ files, ∃ blocks,
    extractMarkdownFences env.parse env.readFile engine file = Except.ok blocks ∧
    ∀ B ∈ blocks, hasNonBlankText B.content = true →
      ∃ lr, env.lint (lintOptionsOf B.content config) = Except.ok lr

/-- Every checker call of the trace returned normally. -/
def CleanTrace (lint : Checker) (checked : List LintOptions) : Prop :=
  ∀ options ∈ checked, ∃ results, lint options = Except.ok results

/-- The last checker call of the trace threw `message`, all earlier ones
returned normally. -/
def ThrowTrace (lint : Checker) (message : String) (checked : List LintOptions) : Prop :=
  ∃ earlier last, checked = earlier ++ [last] ∧ lint last = Except.error message ∧
    CleanTrace lint earlier

/-- The reading of the block index as a position among non-blank blocks only:
the number of non-blank blocks among the first `i + 1` blocks of the list. -/
def nonBlankPosition (blocks : List Block) (i : Nat) : Nat :=
  ((blocks.take (i + 1)).filter (fun B => hasNonBlankText B.content)).length

/-- The number of blank blocks before position `i` of the list. -/
def blankBefore (blocks : List Block) (i : Nat) : Nat :=
  ((blocks.take i).filter (fun B => !hasNonBlankText B.content)).length

/-- The state a loop ends in, whether it completed or threw. -/
def finalState : Except Thrown RunState → RunState
  | Except.ok st => st
  | Except.error thrown => thrown.state

/-! ## Lemmas on extraction -/

theorem extractTokens_cons_skip (fits : Nat → Bool)
    (recurse : String → String → Nat → Nat → String → Except String (List Block))
    (filePath : String) (baseLine depth : Nat) (parentPath : String) (t : Token)
    (ts : List Token) (h : isMarkdownFence t = false) :
    extractTokens fits recurse filePath baseLine depth parentPath (t :: ts) =
      extractTokens fits recurse filePath baseLine depth parentPath ts := by
  simp [extractTokens, h]

theorem extractTokens_cons_md (fits : Nat → Bool)
    (recurse : String → String → Nat → Nat → String → Except String (List Block))
    (filePath : String) (baseLine depth : Nat) (parentPath : String) (t : Token)
    (ts : List Token) (r : List Block) (h : isMarkdownFence t = true) :
    extractTokens fits recurse filePath baseLine depth parentPath (t :: ts) = Except.ok r ↔
      ∃ nested more,
        NestedOf fits recurse filePath baseLine depth parentPath t nested ∧
        extractTokens fits recurse filePath baseLine depth parentPath ts = Except.ok more ∧
        r = blockInfoOf filePath baseLine depth parentPath t :: (nested ++ more) := by
  unfold NestedOf
  rw [extractTokens, if_pos h]
  by_cases hb : hasNonBlankText t.content = true
  · rw [if_pos hb]
    cases hrec : recurse t.content filePath (blockLineOf baseLine t) (depth + 1)
        (blockPathOf parentPath (blockLineOf baseLine t)) with
    | error e =>
      constructor
      · intro hr; cases hr
      · rintro ⟨nested, more, ⟨hn, _⟩, _, _⟩
        have := (hn hb).1
        cases this
    | ok nestedBlocks =>
      by_cases hf : fits nestedBlocks.length = true
      · simp only [hf, if_true]
        cases hrest : extractTokens fits recurse filePath baseLine depth parentPath ts with
        | error e =>
          constructor
          · intro hr; cases hr
          · rintro ⟨_, _, _, hm, _⟩
            cases hm
        | ok more =>
          constructor
          · intro hr
            cases hr
            exact ⟨nestedBlocks, more, ⟨fun _ => ⟨rfl, hf⟩, fun hx => absurd hx (by simp [hb])⟩,
              rfl, rfl⟩
          · rintro ⟨nested, more2, ⟨hn, _⟩, hm, rfl⟩
            cases hm
            have := (hn hb).1
            cases this
            rfl
      · simp only [hf, if_false]
        constructor
        · intro hr; cases hr
        · rintro ⟨nested, more, ⟨hn, _⟩, _, _⟩
          obtain ⟨h1, h2⟩ := hn hb
          cases h1
          exact absurd h2 hf
  · rw [if_neg hb]
    have hb2 : hasNonBlankText t.content = false := by simpa using hb
    cases hrest : extractTokens fits recurse filePath baseLine depth parentPath ts with
    | error e =>
      constructor
      · intro hr; cases hr
      · rintro ⟨_, _, _, hm, _⟩
        cases hm
    | ok more =>
      constructor
      · intro hr
        cases hr
        exact ⟨[], more, ⟨fun hx => absurd hx hb, fun _ => rfl⟩, rfl, rfl⟩
      · rintro ⟨nested, more2, ⟨_, hn⟩, hm, rfl⟩
        cases hm
        rw [hn hb2]
        rfl

theorem extractTokens_nil (fits : Nat → Bool)
    (recurse : String → String → Nat → Nat → String → Except String (List Block))
    (filePath : String) (baseLine depth : Nat) (parentPath : String) (r : List Block)
    (h : extractTokens fits recurse filePath baseLine depth parentPath [] = Except.ok r) :
    r = [] := by
  simp only [extractTokens, Except.ok.injEq] at h
  exact h.symm

theorem extract_zero (parse : String → List Token) (sf : Nat → Nat → Bool)
    (content filePath : String) (baseLine depth : Nat) (parentPath : String) (r : List Block) :
    extractMarkdownFencesRecursive parse sf 0 content filePath baseLine depth parentPath
      ≠ Except.ok r := by
  simp [extractMarkdownFencesRecursive]

theorem blockAt_line (filePath : String) (chain : List Token) :
    ∀ (baseLine depth : Nat) (parentPath : String) (t : Token),
      (blockAt filePath baseLine depth parentPath chain t).line =
        baseLine + (chain.map fenceLine).sum + fenceLine t := by
  induction chain with
  | nil => intro b d pp t; simp [blockAt, blockInfoOf, blockLineOf]
  | cons t0 chain ih =>
    intro b d pp t
    simp only [blockAt, ih, blockLineOf, List.map_cons, List.sum_cons]
    omega

theorem blockAt_depth (filePath : String) (chain : List Token) :
    ∀ (baseLine depth : Nat) (parentPath : String) (t : Token),
      (blockAt filePath baseLine depth parentPath chain t).depth = depth + chain.length := by
  induction chain with
  | nil => intro b d pp t; simp [blockAt, blockInfoOf]
  | cons t0 chain ih =>
    intro b d pp t
    simp only [blockAt, ih, List.length_cons]
    omega

theorem blockAt_content (filePath : String) (chain : List Token) :
    ∀ (baseLine depth : Nat) (parentPath : String) (t : Token),
      (blockAt filePath baseLine depth parentPath chain t).content = t.content := by
  induction chain with
  | nil => intro b d pp t; simp [blockAt, blockInfoOf]
  | cons t0 chain ih => intro b d pp t; simp only [blockAt, ih]

/-- Two runs of the token loop that both return, return the same list. -/
theorem extractTokens_unique (fits1 fits2 : Nat → Bool)
    (rec1 rec2 : String → String → Nat → Nat → String → Except String (List Block))
    (hrec : ∀ c f b d p r1 r2, rec1 c f b d p = Except.ok r1 → rec2 c f b d p = Except.ok r2 →
      r1 = r2)
    (filePath : String) (baseLine depth : Nat) (parentPath : String) (ts : List Token) :
    ∀ r1 r2, extractTokens fits1 rec1 filePath baseLine depth parentPath ts = Except.ok r1 →
      extractTokens fits2 rec2 filePath baseLine depth parentPath ts = Except.ok r2 →
      r1 = r2 := by
  induction ts with
  | nil =>
    intro r1 r2 h1 h2
    rw [extractTokens_nil _ _ _ _ _ _ _ h1, extractTokens_nil _ _ _ _ _ _ _ h2]
  | cons t ts ih =>
    intro r1 r2 h1 h2
    by_cases hm : isMarkdownFence t = true
    · rw [extractTokens_cons_md _ _ _ _ _ _ _ _ _ hm] at h1 h2
      obtain ⟨n1, m1, ⟨a1, b1⟩, c1, rfl⟩ := h1
      obtain ⟨n2, m2, ⟨a2, b2⟩, c2, rfl⟩ := h2
      have hmore := ih _ _ c1 c2
      have hnested : n1 = n2 := by
        cases hb : hasNonBlankText t.content with
        | true => exact hrec _ _ _ _ _ _ _ (a1 hb).1 (a2 hb).1
        | false => rw [b1 hb, b2 hb]
      rw [hmore, hnested]
    · have hm2 : isMarkdownFence t = false := by simpa using hm
      rw [extractTokens_cons_skip _ _ _ _ _ _ _ _ hm2] at h1 h2
      exact ih _ _ h1 h2

/-- Two extractions of the same content that both return, return the same list,
whatever the limits of the two engines. -/
theorem extract_unique (parse : String → List Token) (sf1 sf2 : Nat → Nat → Bool)
    (room1 : Nat) :
    ∀ room2 content filePath baseLine depth parentPath r1 r2,
      extractMarkdownFencesRecursive parse sf1 room1 content filePath baseLine depth parentPath
        = Except.ok r1 →
      extractMarkdownFencesRecursive parse sf2 room2 content filePath baseLine depth parentPath
        = Except.ok r2 → r1 = r2 := by
  induction room1 with
  | zero => intro room2 c f b d p r1 r2 h1; exact absurd h1 (extract_zero _ _ _ _ _ _ _ _)
  | succ n ih =>
    intro room2 c f b d p r1 r2 h1 h2
    cases room2 with
    | zero => exact absurd h2 (extract_zero _ _ _ _ _ _ _ _)
    | succ m =>
      rw [extractMarkdownFencesRecursive] at h1 h2
      exact extractTokens_unique _ _ _ _ (fun c f b d p r1 r2 => ih m c f b d p r1 r2)
        _ _ _ _ _ _ _ h1 h2

theorem isMarkdownFence_type (t : Token) (h : isMarkdownFence t = true) : t.type = "fence" := by
  simp only [isMarkdownFence, Bool.and_eq_true, beq_iff_eq] at h
  exact h.1

/-- The token loop returns when every recursive call returns and every
argument list is accepted. -/
theorem extractTokens_total
    (recurse : String → String → Nat → Nat → String → Except String (List Block))
    (filePath : String) (baseLine depth : Nat) (parentPath : String) (ts : List Token)
    (hrec : ∀ t ∈ ts, isMarkdownFence t = true → hasNonBlankText t.content = true →
      ∀ f b d p, ∃ r, recurse t.content f b d p = Except.ok r) :
    ∃ r, extractTokens (fun _ => true) recurse filePath baseLine depth parentPath ts
      = Except.ok r := by
  induction ts with
  | nil => exact ⟨[], rfl⟩
  | cons t ts ih =>
    obtain ⟨more, hmore⟩ := ih (fun t ht => hrec t (List.mem_cons_of_mem _ ht))
    by_cases hm : isMarkdownFence t = true
    · cases hb : hasNonBlankText t.content with
      | true =>
        obtain ⟨nested, hn⟩ := hrec t (List.mem_cons_self _ _) hm hb filePath
          (blockLineOf baseLine t) (depth + 1) (blockPathOf parentPath (blockLineOf baseLine t))
        exact ⟨_, (extractTokens_cons_md _ _ _ _ _ _ _ _ _ hm).2
          ⟨nested, more, ⟨fun _ => ⟨hn, rfl⟩, fun hx => absurd hx (by simp [hb])⟩, hmore, rfl⟩⟩
      | false =>
        exact ⟨_, (extractTokens_cons_md _ _ _ _ _ _ _ _ _ hm).2
          ⟨[], more, ⟨fun hx => absurd hx (by simp [hb]), fun _ => rfl⟩, hmore, rfl⟩⟩
    · have hm2 : isMarkdownFence t = false := by simpa using hm
      exact ⟨more, by rw [extractTokens_cons_skip _ _ _ _ _ _ _ _ hm2]; exact hmore⟩

/-- On an engine that accepts every argument list, extraction returns as soon
as the stack room exceeds a measure that decreases along the nesting. -/
theorem extract_total (parse : String → List Token) (size : String → Nat)
    (hdecr : NestingDecreases parse size) (room : Nat) :
    ∀ content filePath baseLine depth parentPath, size content < room →
      ∃ r, extractMarkdownFencesRecursive parse (fun _ _ => true) room content filePath
        baseLine depth parentPath = Except.ok r := by
  induction room with
  | zero => intro c f b d p h; omega
  | succ n ih =>
    intro c f b d p h
    rw [extractMarkdownFencesRecursive]
    apply extractTokens_total
    intro t ht hm hb f2 b2 d2 p2
    have := hdecr c t ht hm hb
    exact ih _ _ _ _ _ (by omega)

/-- A run of the token loop that returns `r` with every argument list accepted
returns `r` as well when only the argument lists up to the length of `r` are
accepted. -/
theorem extractTokens_limited (fits : Nat → Bool)
    (recI recL : String → String → Nat → Nat → String → Except String (List Block))
    (bound : Nat)
    (hrec : ∀ c f b d p r, recI c f b d p = Except.ok r → r.length ≤ bound →
      recL c f b d p = Except.ok r)
    (hfits : ∀ n, n ≤ bound → fits n = true)
    (filePath : String) (baseLine depth : Nat) (parentPath : String) (ts : List Token) :
    ∀ r, extractTokens (fun _ => true) recI filePath baseLine depth parentPath ts = Except.ok r →
      r.length ≤ bound →
      extractTokens fits recL filePath baseLine depth parentPath ts = Except.ok r := by
  induction ts with
  | nil => intro r h _; rw [extractTokens_nil _ _ _ _ _ _ _ h]; rfl
  | cons t ts ih =>
    intro r h hlen
    by_cases hm : isMarkdownFence t = true
    · rw [extractTokens_cons_md _ _ _ _ _ _ _ _ _ hm] at h ⊢
      obtain ⟨nested, more, ⟨a, b⟩, c, rfl⟩ := h
      simp only [List.length_cons, List.length_append] at hlen
      refine ⟨nested, more, ⟨fun hb => ?_, b⟩, ih _ c (by omega), rfl⟩
      exact ⟨hrec _ _ _ _ _ _ (a hb).1 (by omega), hfits _ (by omega)⟩
    · have hm2 : isMarkdownFence t = false := by simpa using hm
      rw [extractTokens_cons_skip _ _ _ _ _ _ _ _ hm2] at h ⊢
      exact ih _ h hlen

/-- What an engine without a limit on argument lists returns, an engine with
the same stack room that accepts argument lists up to the length of the result
returns as well. -/
theorem extract_limited (parse : String → List Token) (sf : Nat → Nat → Bool) (bound : Nat)
    (hfits : ∀ k n, n ≤ bound → sf k n = true) (room : Nat) :
    ∀ content filePath baseLine depth parentPath r,
      extractMarkdownFencesRecursive parse (fun _ _ => true) room content filePath baseLine
        depth parentPath = Except.ok r → r.length ≤ bound →
      extractMarkdownFencesRecursive parse sf room content filePath baseLine depth parentPath
        = Except.ok r := by
  induction room with
  | zero => intro c f b d p r h; exact absurd h (extract_zero _ _ _ _ _ _ _ _)
  | succ n ih =>
    intro c f b d p r h hlen
    rw [extractMarkdownFencesRecursive] at h ⊢
    exact extractTokens_limited _ _ _ bound ih (hfits n) _ _ _ _ _ _ h hlen

/-- The two ways a matching fence contributes to the token loop. -/
theorem nestedOf_cases (fits : Nat → Bool)
    (recurse : String → String → Nat → Nat → String → Except String (List Block))
    (filePath : String) (baseLine depth : Nat) (parentPath : String) (t : Token)
    (nested : List Block)
    (h : NestedOf fits recurse filePath baseLine depth parentPath t nested) :
    (hasNonBlankText t.content = true ∧
      recurse t.content filePath (blockLineOf baseLine t) (depth + 1)
        (blockPathOf parentPath (blockLineOf baseLine t)) = Except.ok nested ∧
      fits nested.length = true) ∨
    (hasNonBlankText t.content = false ∧ nested = []) := by
  cases hb : hasNonBlankText t.content with
  | true => exact Or.inl ⟨rfl, h.1 hb⟩
  | false => exact Or.inr ⟨rfl, h.2 hb⟩

theorem extractTokens_depth_bounds (fits : Nat → Bool)
    (recurse : String → String → Nat → Nat → String → Except String (List Block))
    (room : Nat)
    (hrec : ∀ c f b d p r, recurse c f b d p = Except.ok r →
      ∀ B ∈ r, d ≤ B.depth ∧ B.depth < d + room)
    (filePath : String) (baseLine depth : Nat) (parentPath : String) (ts : List Token) :
    ∀ r, extractTokens fits recurse filePath baseLine depth parentPath ts = Except.ok r →
      ∀ B ∈ r, depth ≤ B.depth ∧ B.depth < depth + (room + 1) := by
  induction ts with
  | nil => intro r h B hB; rw [extractTokens_nil _ _ _ _ _ _ _ h] at hB; simp at hB
  | cons t ts ih =>
    intro r h B hB
    by_cases hm : isMarkdownFence t = true
    · rw [extractTokens_cons_md _ _ _ _ _ _ _ _ _ hm] at h
      obtain ⟨nested, more, hn, h2, rfl⟩ := h
      simp only [List.mem_cons, List.mem_append] at hB
      rcases hB with rfl | hB | hB
      · simp only [blockInfoOf]
        omega
      · rcases nestedOf_cases _ _ _ _ _ _ _ _ hn with ⟨_, h1, _⟩ | ⟨_, rfl⟩
        · have := hrec _ _ _ _ _ _ h1 B hB
          omega
        · simp at hB
      · exact ih _ h2 B hB
    · have hm2 : isMarkdownFence t = false := by simpa using hm
      rw [extractTokens_cons_skip _ _ _ _ _ _ _ _ hm2] at h
      exact ih _ h B hB

/-- Every returned block is at least as deep as the start depth and less deep
than the start depth plus the stack room. -/
theorem extract_depth_bounds (parse : String → List Token) (sf : Nat → Nat → Bool)
    (room : Nat) :
    ∀ content filePath baseLine depth parentPath r,
      extractMarkdownFencesRecursive parse sf room content filePath baseLine depth parentPath
        = Except.ok r → ∀ B ∈ r, depth ≤ B.depth ∧ B.depth < depth + room := by
  induction room with
  | zero => intro c f b d p r h; exact absurd h (extract_zero _ _ _ _ _ _ _ _)
  | succ n ih =>
    intro c f b d p r h
    rw [extractMarkdownFencesRecursive] at h
    exact extractTokens_depth_bounds _ _ n ih _ _ _ _ _ _ h

/-- What the recursive call contributes for a matching fence is deeper than
the fence's own block. -/
theorem nested_depth_gt (parse : String → List Token) (sf : Nat → Nat → Bool) (n : Nat)
    (fits : Nat → Bool) (t : Token) (filePath : String) (baseLine depth : Nat)
    (parentPath : String) (nested : List Block)
    (hn : NestedOf fits (extractMarkdownFencesRecursive parse sf n) filePath baseLine depth
      parentPath t nested) :
    ∀ C ∈ nested, depth < C.depth := by
  intro C hC
  rcases nestedOf_cases _ _ _ _ _ _ _ _ hn with ⟨_, h1, _⟩ | ⟨_, rfl⟩
  · have := (extract_depth_bounds parse sf n _ _ _ _ _ _ h1 C hC).1
    omega
  · simp at hC

theorem extractTokens_head_depth (fits : Nat → Bool)
    (recurse : String → String → Nat → Nat → String → Except String (List Block))
    (filePath : String) (baseLine depth : Nat) (parentPath : String) (ts : List Token) :
    ∀ r, extractTokens fits recurse filePath baseLine depth parentPath ts = Except.ok r →
      ∀ B, r.head? = some B → B.depth = depth := by
  induction ts with
  | nil => intro r h B hB; rw [extractTokens_nil _ _ _ _ _ _ _ h] at hB; simp at hB
  | cons t ts ih =>
    intro r h B hB
    by_cases hm : isMarkdownFence t = true
    · rw [extractTokens_cons_md _ _ _ _ _ _ _ _ _ hm] at h
      obtain ⟨nested, more, _, _, rfl⟩ := h
      simp only [List.head?_cons, Option.some.injEq] at hB
      subst hB
      rfl
    · have hm2 : isMarkdownFence t = false := by simpa using hm
      rw [extractTokens_cons_skip _ _ _ _ _ _ _ _ hm2] at h
      exact ih _ h B hB

/-- The blocks at the starting depth are the matching fences of the stream, in
stream order, one per fence. -/
theorem extractTokens_direct (parse : String → List Token) (sf : Nat → Nat → Bool) (n : Nat)
    (fits : Nat → Bool) (filePath : String) (baseLine depth : Nat) (parentPath : String)
    (ts : List Token) :
    ∀ r, extractTokens fits (extractMarkdownFencesRecursive parse sf n) filePath baseLine depth
        parentPath ts = Except.ok r →
      r.filter (fun B => B.depth == depth) =
        (ts.filter isMarkdownFence).map (blockInfoOf filePath baseLine depth parentPath) := by
  induction ts with
  | nil => intro r h; rw [extractTokens_nil _ _ _ _ _ _ _ h]; rfl
  | cons t ts ih =>
    intro r h
    by_cases hm : isMarkdownFence t = true
    · rw [extractTokens_cons_md _ _ _ _ _ _ _ _ _ hm] at h
      obtain ⟨nested, more, hn, h2, rfl⟩ := h
      have hnil : nested.filter (fun B => B.depth == depth) = [] := by
        rw [List.filter_eq_nil_iff]
        intro C hC
        have := nested_depth_gt parse sf n fits t _ _ _ _ _ hn C hC
        simp only [beq_iff_eq]
        omega
      have h0 : (blockInfoOf filePath baseLine depth parentPath t).depth = depth := rfl
      simp [List.filter_cons, hm, h0, hnil, ih _ h2]
    · have hm2 : isMarkdownFence t = false := by simpa using hm
      rw [extractTokens_cons_skip _ _ _ _ _ _ _ _ hm2] at h
      simp [List.filter_cons, hm2, ih _ h]

/-- Every returned block is the record of a chain of nested matching fences. -/
theorem extractTokens_sound (parse : String → List Token) (fits : Nat → Bool)
    (recurse : String → String → Nat → Nat → String → Except String (List Block))
    (hrec : ∀ c f b d p r, recurse c f b d p = Except.ok r →
      ∀ B ∈ r, ∃ chain t, FenceChain parse (parse c) chain t ∧ B = blockAt f b d p chain t)
    (filePath : String) (baseLine depth : Nat) (parentPath : String) (ts : List Token) :
    ∀ (us : List Token), (∀ t ∈ ts, t ∈ us) → ∀ r,
      extractTokens fits recurse filePath baseLine depth parentPath ts = Except.ok r →
      ∀ B ∈ r, ∃ chain t, FenceChain parse us chain t ∧
        B = blockAt filePath baseLine depth parentPath chain t := by
  induction ts with
  | nil =>
    intro us _ r h B hB
    rw [extractTokens_nil _ _ _ _ _ _ _ h] at hB
    simp at hB
  | cons t ts ih =>
    intro us hus r h B hB
    have hus2 : ∀ x ∈ ts, x ∈ us := fun x hx => hus x (List.mem_cons_of_mem _ hx)
    by_cases hm : isMarkdownFence t = true
    · rw [extractTokens_cons_md _ _ _ _ _ _ _ _ _ hm] at h
      obtain ⟨nested, more, hn, h2, rfl⟩ := h
      simp only [List.mem_cons, List.mem_append] at hB
      rcases hB with rfl | hB | hB
      · exact ⟨[], t, FenceChain.direct (hus t (List.mem_cons_self _ _)) hm, rfl⟩
      · rcases nestedOf_cases _ _ _ _ _ _ _ _ hn with ⟨hb, h1, _⟩ | ⟨_, rfl⟩
        · obtain ⟨chain, u, hc, rfl⟩ := hrec _ _ _ _ _ _ h1 B hB
          exact ⟨t :: chain, u, FenceChain.inside (hus t (List.mem_cons_self _ _)) hm hb hc, rfl⟩
        · simp at hB
      · exact ih us hus2 _ h2 B hB
    · have hm2 : isMarkdownFence t = false := by simpa using hm
      rw [extractTokens_cons_skip _ _ _ _ _ _ _ _ hm2] at h
      exact ih us hus2 _ h B hB

theorem extract_sound (parse : String → List Token) (sf : Nat → Nat → Bool) (room : Nat) :
    ∀ content filePath baseLine depth parentPath r,
      extractMarkdownFencesRecursive parse sf room content filePath baseLine depth parentPath
        = Except.ok r →
      ∀ B ∈ r, ∃ chain t, FenceChain parse (parse content) chain t ∧
        B = blockAt filePath baseLine depth parentPath chain t := by
  induction room with
  | zero => intro c f b d p r h; exact absurd h (extract_zero _ _ _ _ _ _ _ _)
  | succ n ih =>
    intro c f b d p r h
    rw [extractMarkdownFencesRecursive] at h
    exact extractTokens_sound parse _ _ ih _ _ _ _ _ _ (fun _ hx => hx) _ h

/-- Every chain of nested matching fences has its block in the result. -/
theorem extractTokens_complete (parse : String → List Token) (fits : Nat → Bool)
    (recurse : String → String → Nat → Nat → String → Except String (List Block))
    (hrec : ∀ c f b d p r, recurse c f b d p = Except.ok r →
      ∀ chain t, FenceChain parse (parse c) chain t → blockAt f b d p chain t ∈ r)
    (filePath : String) (baseLine depth : Nat) (parentPath : String) (ts : List Token) :
    ∀ r, extractTokens fits recurse filePath baseLine depth parentPath ts = Except.ok r →
      ∀ chain t, FenceChain parse ts chain t →
        blockAt filePath baseLine depth parentPath chain t ∈ r := by
  induction ts with
  | nil =>
    intro r _ chain t hc
    cases hc with
    | direct hmem _ => simp at hmem
    | inside hmem _ _ _ => simp at hmem
  | cons t ts ih =>
    intro r h chain u hc
    have key : ∀ r2, extractTokens fits recurse filePath baseLine depth parentPath ts
          = Except.ok r2 →
        (∀ B ∈ r2, B ∈ r) →
        (isMarkdownFence t = true → hasNonBlankText t.content = true → ∀ chain2,
          FenceChain parse (parse t.content) chain2 u →
          blockAt filePath baseLine depth parentPath (t :: chain2) u ∈ r) →
        (isMarkdownFence t = true → blockInfoOf filePath baseLine depth parentPath t ∈ r) →
        blockAt filePath baseLine depth parentPath chain u ∈ r := by
      intro r2 h2 hsub hin hdir
      cases hc with
      | direct hmem hmd =>
        rcases List.mem_cons.1 hmem with rfl | hmem
        · exact hdir hmd
        · exact hsub _ (ih _ h2 _ _ (FenceChain.direct hmem hmd))
      | inside hmem hmd hnb hrest =>
        rcases List.mem_cons.1 hmem with rfl | hmem
        · exact hin hmd hnb _ hrest
        · exact hsub _ (ih _ h2 _ _ (FenceChain.inside hmem hmd hnb hrest))
    by_cases hm : isMarkdownFence t = true
    · rw [extractTokens_cons_md _ _ _ _ _ _ _ _ _ hm] at h
      obtain ⟨nested, more, hn, h2, rfl⟩ := h
      refine key more h2 (fun B hB => by simp [hB]) ?_ (fun _ => by simp)
      intro _ hb chain2 hc2
      have := hrec _ _ _ _ _ _ (hn.1 hb).1 chain2 u hc2
      simp only [blockAt, List.mem_cons, List.mem_append]
      exact Or.inr (Or.inl this)
    · have hm2 : isMarkdownFence t = false := by simpa using hm
      rw [extractTokens_cons_skip _ _ _ _ _ _ _ _ hm2] at h
      exact key r h (fun B hB => hB) (fun h0 => absurd h0 hm) (fun h0 => absurd h0 hm)

theorem extract_complete (parse : String → List Token) (sf : Nat → Nat → Bool) (room : Nat) :
    ∀ content filePath baseLine depth parentPath r,
      extractMarkdownFencesRecursive parse sf room content filePath baseLine depth parentPath
        = Except.ok r →
      ∀ chain t, FenceChain parse (parse content) chain t →
        blockAt filePath baseLine depth parentPath chain t ∈ r := by
  induction room with
  | zero => intro c f b d p r h; exact absurd h (extract_zero _ _ _ _ _ _ _ _)
  | succ n ih =>
    intro c f b d p r h
    rw [extractMarkdownFencesRecursive] at h
    exact extractTokens_complete parse _ _ ih _ _ _ _ _ _ h

/-- What a matching fence contributes in the token loop is the extraction of
the content of its block. -/
theorem nestedOf_isExtraction (parse : String → List Token) (sf : Nat → Nat → Bool) (n : Nat)
    (fits : Nat → Bool) (t : Token) (filePath : String) (baseLine depth : Nat)
    (parentPath : String) (nested : List Block)
    (hn : NestedOf fits (extractMarkdownFencesRecursive parse sf n) filePath baseLine depth
      parentPath t nested) :
    IsExtractionOf parse (blockInfoOf filePath baseLine depth parentPath t) nested :=
  ⟨fun hb => ⟨sf, n, (hn.1 hb).1⟩, fun hb => hn.2 hb⟩

theorem preOrder_nil (parse : String → List Token) : PreOrder parse [] := by
  intro pre B post h
  simp at h

/-- Pre-order is kept when a block is put in front of the extraction of its own
content, followed by a pre-ordered list of blocks that starts no deeper. -/
theorem preOrder_cons_append (parse : String → List Token) (B0 : Block)
    (nested more : List Block)
    (hsub : IsExtractionOf parse B0 nested)
    (hdeep : ∀ C ∈ nested, B0.depth < C.depth)
    (hhead : ∀ C, more.head? = some C → C.depth = B0.depth)
    (hn : PreOrder parse nested) (hm : PreOrder parse more) :
    PreOrder parse (B0 :: (nested ++ more)) := by
  intro pre B post h
  cases pre with
  | nil =>
    simp only [List.nil_append, List.cons.injEq] at h
    obtain ⟨rfl, rfl⟩ := h
    exact ⟨nested, more, rfl, hsub, hdeep, fun C hC => le_of_eq (hhead C hC)⟩
  | cons p pre2 =>
    simp only [List.cons_append, List.cons.injEq] at h
    obtain ⟨_, h⟩ := h
    rcases List.append_eq_append_iff.1 h with ⟨a2, _, hmore⟩ | ⟨c2, hnested, hpost⟩
    · exact hm a2 B post hmore
    · cases c2 with
      | nil =>
        simp only [List.nil_append] at hpost
        exact hm [] B post (by simpa using hpost.symm)
      | cons c c3 =>
        simp only [List.cons_append, List.cons.injEq] at hpost
        obtain ⟨rfl, rfl⟩ := hpost
        obtain ⟨sub, rest, hc3, hx, hd, hh⟩ := hn pre2 B c3 hnested
        refine ⟨sub, rest ++ more, by rw [hc3, List.append_assoc], hx, hd, ?_⟩
        intro C hC
        cases rest with
        | nil =>
          simp only [List.nil_append] at hC
          have h1 := hhead C hC
          have h2 := hdeep B (by rw [hnested]; simp)
          omega
        | cons x xs =>
          simp only [List.cons_append, List.head?_cons, Option.some.injEq] at hC
          exact hh C (by simp [hC])

theorem extractTokens_preOrder (parse : String → List Token) (sf : Nat → Nat → Bool) (n : Nat)
    (fits : Nat → Bool)
    (ih : ∀ c f b d p r, extractMarkdownFencesRecursive parse sf n c f b d p = Except.ok r →
      PreOrder parse r)
    (filePath : String) (baseLine depth : Nat) (parentPath : String) (ts : List Token) :
    ∀ r, extractTokens fits (extractMarkdownFencesRecursive parse sf n) filePath baseLine depth
        parentPath ts = Except.ok r → PreOrder parse r := by
  induction ts with
  | nil => intro r h; rw [extractTokens_nil _ _ _ _ _ _ _ h]; exact preOrder_nil parse
  | cons t ts iht =>
    intro r h
    by_cases hm : isMarkdownFence t = true
    · rw [extractTokens_cons_md _ _ _ _ _ _ _ _ _ hm] at h
      obtain ⟨nested, more, hn, h2, rfl⟩ := h
      apply preOrder_cons_append
      · exact nestedOf_isExtraction parse sf n fits t _ _ _ _ _ hn
      · exact nested_depth_gt parse sf n fits t _ _ _ _ _ hn
      · exact extractTokens_head_depth _ _ _ _ _ _ _ _ h2
      · rcases nestedOf_cases _ _ _ _ _ _ _ _ hn with ⟨_, h1, _⟩ | ⟨_, rfl⟩
        · exact ih _ _ _ _ _ _ h1
        · exact preOrder_nil parse
      · exact iht _ h2
    · have hm2 : isMarkdownFence t = false := by simpa using hm
      rw [extractTokens_cons_skip _ _ _ _ _ _ _ _ hm2] at h
      exact iht _ h

theorem extract_preOrder (parse : String → List Token) (sf : Nat → Nat → Bool) (room : Nat) :
    ∀ content filePath baseLine depth parentPath r,
      extractMarkdownFencesRecursive parse sf room content filePath baseLine depth parentPath
        = Except.ok r → PreOrder parse r := by
  induction room with
  | zero => intro c f b d p r h; exact absurd h (extract_zero _ _ _ _ _ _ _ _)
  | succ n ih =>
    intro c f b d p r h
    rw [extractMarkdownFencesRecursive] at h
    exact extractTokens_preOrder parse sf n _ ih _ _ _ _ _ _ h

/-- The result of the token loop is made of the blocks of the matching fences,
each followed by the extraction of its content. -/
theorem extractTokens_blocksOfStream (parse : String → List Token) (sf : Nat → Nat → Bool)
    (n : Nat) (fits : Nat → Bool) (filePath : String) (baseLine depth : Nat)
    (parentPath : String) (ts : List Token) :
    ∀ r, extractTokens fits (extractMarkdownFencesRecursive parse sf n) filePath baseLine depth
        parentPath ts = Except.ok r →
      BlocksOfStream parse filePath baseLine depth parentPath ts r := by
  induction ts with
  | nil =>
    intro r h
    rw [extractTokens_nil _ _ _ _ _ _ _ h]
    exact ⟨[], List.Forall₂.nil, rfl⟩
  | cons t ts ih =>
    intro r h
    by_cases hm : isMarkdownFence t = true
    · rw [extractTokens_cons_md _ _ _ _ _ _ _ _ _ hm] at h
      obtain ⟨nested, more, hn, h2, rfl⟩ := h
      obtain ⟨subs, hall, rfl⟩ := ih _ h2
      refine ⟨nested :: subs, ?_, ?_⟩
      · rw [List.filter_cons, if_pos hm]
        exact List.Forall₂.cons (nestedOf_isExtraction parse sf n fits t _ _ _ _ _ hn) hall
      · rw [List.filter_cons, if_pos hm]
        simp
    · have hm2 : isMarkdownFence t = false := by simpa using hm
      rw [extractTokens_cons_skip _ _ _ _ _ _ _ _ hm2] at h
      obtain ⟨subs, hall, rfl⟩ := ih _ h
      refine ⟨subs, ?_, ?_⟩
      · rw [List.filter_cons, if_neg hm]
        exact hall
      · rw [List.filter_cons, if_neg hm]

/-! ## Lemmas on the driver -/

theorem skip_iff_blank (s : String) :
    (s = "" ∨ (jsTrim s).length = 0) ↔ hasNonBlankText s = false := by
  simp only [hasNonBlankText, decide_eq_false_iff_not, not_lt, Nat.le_zero]
  constructor
  · rintro (rfl | h)
    · rfl
    · exact h
  · intro h; exact Or.inr h

theorem lintBlocks_cons_blank (lint : Checker) (config : Config) (rel : String) (index : Nat)
    (B : Block) (rest : List Block) (st : RunState) (hb : hasNonBlankText B.content = false) :
    lintBlocks lint config rel index (B :: rest) st =
      lintBlocks lint config rel (index + 1) rest st := by
  rw [lintBlocks, if_pos ((skip_iff_blank _).2 hb)]

theorem lintBlocks_cons_throw (lint : Checker) (config : Config) (rel : String) (index : Nat)
    (B : Block) (rest : List Block) (st : RunState) (message : String)
    (hb : hasNonBlankText B.content = true)
    (hl : lint (lintOptionsOf B.content config) = Except.error message) :
    lintBlocks lint config rel index (B :: rest) st =
      Except.error { message := message,
                     state := { st with checked := st.checked ++ [lintOptionsOf B.content config] } } := by
  have hs : ¬ (B.content = "" ∨ (jsTrim B.content).length = 0) := by
    rw [skip_iff_blank]; simp [hb]
  rw [lintBlocks, if_neg hs]
  simp only [lintMarkdownContent, hl]

theorem lintBlocks_cons_ok (lint : Checker) (config : Config) (rel : String) (index : Nat)
    (B : Block) (rest : List Block) (st : RunState) (lr : LintResults)
    (hb : hasNonBlankText B.content = true)
    (hl : lint (lintOptionsOf B.content config) = Except.ok lr) :
    lintBlocks lint config rel index (B :: rest) st =
      lintBlocks lint config rel (index + 1) rest
        { totalBlocks := st.totalBlocks
          allResults := st.allResults ++
            (if (errorsOf lr).length > 0 then [blockResultOf rel index B (errorsOf lr)] else [])
          checked := st.checked ++ [lintOptionsOf B.content config] } := by
  have hs : ¬ (B.content = "" ∨ (jsTrim B.content).length = 0) := by
    rw [skip_iff_blank]; simp [hb]
  rw [lintBlocks, if_neg hs]
  simp only [lintMarkdownContent, hl]
  by_cases he : (errorsOf lr).length > 0
  · simp [he]
  · simp [he]

/-- The three ways one round of the block loop can go. -/
theorem lintBlocks_cases (lint : Checker) (config : Config) (B : Block) :
    hasNonBlankText B.content = false ∨
    (hasNonBlankText B.content = true ∧
      ∃ message, lint (lintOptionsOf B.content config) = Except.error message) ∨
    (hasNonBlankText B.content = true ∧
      ∃ lr, lint (lintOptionsOf B.content config) = Except.ok lr) := by
  cases hb : hasNonBlankText B.content with
  | false => exact Or.inl rfl
  | true =>
    cases hl : lint (lintOptionsOf B.content config) with
    | error message => exact Or.inr (Or.inl ⟨rfl, message, rfl⟩)
    | ok lr => exact Or.inr (Or.inr ⟨rfl, lr, rfl⟩)

theorem lintBlocks_results_sound (lint : Checker) (config : Config) (rel : String)
    (blocks : List Block) :
    ∀ (index : Nat) (st : RunState),
      ∀ res ∈ (finalState (lintBlocks lint config rel index blocks st)).allResults,
        res ∈ st.allResults ∨
        ∃ i B lr, blocks[i]? = some B ∧ hasNonBlankText B.content = true ∧
          lint (lintOptionsOf B.content config) = Except.ok lr ∧ 0 < (errorsOf lr).length ∧
          res = blockResultOf rel (index + i) B (errorsOf lr) := by
  induction blocks with
  | nil => intro index st res h; exact Or.inl (by simpa [lintBlocks, finalState] using h)
  | cons B rest ih =>
    intro index st res h
    have shift : (∃ i B2 lr, rest[i]? = some B2 ∧ hasNonBlankText B2.content = true ∧
          lint (lintOptionsOf B2.content config) = Except.ok lr ∧ 0 < (errorsOf lr).length ∧
          res = blockResultOf rel (index + 1 + i) B2 (errorsOf lr)) →
        ∃ i B2 lr, (B :: rest)[i]? = some B2 ∧ hasNonBlankText B2.content = true ∧
          lint (lintOptionsOf B2.content config) = Except.ok lr ∧ 0 < (errorsOf lr).length ∧
          res = blockResultOf rel (index + i) B2 (errorsOf lr) := by
      rintro ⟨i, B2, lr, h1, h2, h3, h4, h5⟩
      refine ⟨i + 1, B2, lr, by simpa using h1, h2, h3, h4, ?_⟩
      rw [h5]; congr 1; omega
    rcases lintBlocks_cases lint config B with hb | ⟨hb, message, hl⟩ | ⟨hb, lr, hl⟩
    · rw [lintBlocks_cons_blank _ _ _ _ _ _ _ hb] at h
      rcases ih _ _ res h with h | h
      · exact Or.inl h
      · exact Or.inr (shift h)
    · rw [lintBlocks_cons_throw _ _ _ _ _ _ _ _ hb hl] at h
      exact Or.inl (by simpa [finalState] using h)
    · rw [lintBlocks_cons_ok _ _ _ _ _ _ _ _ hb hl] at h
      rcases ih _ _ res h with h | h
      · simp only [List.mem_append] at h
        rcases h with h | h
        · exact Or.inl h
        · by_cases he : (errorsOf lr).length > 0
          · simp only [he, if_true, List.mem_singleton] at h
            exact Or.inr ⟨0, B, lr, by simp, hb, hl, he, by simpa using h⟩
          · simp [he] at h
      · exact Or.inr (shift h)

theorem lintBlocks_results_complete (lint : Checker) (config : Config) (rel : String)
    (blocks : List Block) :
    ∀ (index : Nat) (st st2 : RunState),
      lintBlocks lint config rel index blocks st = Except.ok st2 →
      (∀ res ∈ st.allResults, res ∈ st2.allResults) ∧
      ∀ i B lr, blocks[i]? = some B → hasNonBlankText B.content = true →
        lint (lintOptionsOf B.content config) = Except.ok lr → 0 < (errorsOf lr).length →
        blockResultOf rel (index + i) B (errorsOf lr) ∈ st2.allResults := by
  induction blocks with
  | nil =>
    intro index st st2 h
    simp only [lintBlocks, Except.ok.injEq] at h
    subst h
    exact ⟨fun _ h => h, fun i B lr hi => by simp at hi⟩
  | cons B rest ih =>
    intro index st st2 h
    have step : ∀ st1, lintBlocks lint config rel (index + 1) rest st1 = Except.ok st2 →
        (∀ res ∈ st.allResults, res ∈ st1.allResults) →
        (∀ lr, hasNonBlankText B.content = true →
          lint (lintOptionsOf B.content config) = Except.ok lr → 0 < (errorsOf lr).length →
          blockResultOf rel index B (errorsOf lr) ∈ st1.allResults) →
        (∀ res ∈ st.allResults, res ∈ st2.allResults) ∧
        ∀ i B2 lr, (B :: rest)[i]? = some B2 → hasNonBlankText B2.content = true →
          lint (lintOptionsOf B2.content config) = Except.ok lr → 0 < (errorsOf lr).length →
          blockResultOf rel (index + i) B2 (errorsOf lr) ∈ st2.allResults := by
      intro st1 h1 hkeep hhead
      obtain ⟨k1, k2⟩ := ih _ _ _ h1
      refine ⟨fun res hres => k1 res (hkeep res hres), ?_⟩
      intro i B2 lr hi hb hl he
      cases i with
      | zero =>
        simp only [List.getElem?_cons_zero, Option.some.injEq] at hi
        subst hi
        exact k1 _ (hhead lr hb hl he)
      | succ j =>
        simp only [List.getElem?_cons_succ] at hi
        have := k2 j B2 lr hi hb hl he
        have e : index + 1 + j = index + (j + 1) := by omega
        rwa [e] at this
    rcases lintBlocks_cases lint config B with hb | ⟨hb, message, hl⟩ | ⟨hb, lr, hl⟩
    · rw [lintBlocks_cons_blank _ _ _ _ _ _ _ hb] at h
      exact step st h (fun _ h => h) (fun lr hb2 => by simp [hb] at hb2)
    · rw [lintBlocks_cons_throw _ _ _ _ _ _ _ _ hb hl] at h
      simp at h
    · rw [lintBlocks_cons_ok _ _ _ _ _ _ _ _ hb hl] at h
      refine step _ h (fun res hres => by simp [hres]) ?_
      intro lr2 _ hl2 he
      rw [hl] at hl2
      cases hl2
      simp [he]

theorem lintBlocks_checked_sound (lint : Checker) (config : Config) (rel : String)
    (blocks : List Block) :
    ∀ (index : Nat) (st : RunState),
      ∀ options ∈ (finalState (lintBlocks lint config rel index blocks st)).checked,
        options ∈ st.checked ∨
        ∃ B ∈ blocks, hasNonBlankText B.content = true ∧
          options = lintOptionsOf B.content config := by
  induction blocks with
  | nil => intro index st o h; exact Or.inl (by simpa [lintBlocks, finalState] using h)
  | cons B rest ih =>
    intro index st o h
    have shift : (∃ B2 ∈ rest, hasNonBlankText B2.content = true ∧
          o = lintOptionsOf B2.content config) →
        ∃ B2 ∈ B :: rest, hasNonBlankText B2.content = true ∧
          o = lintOptionsOf B2.content config := by
      rintro ⟨B2, hm, h1, h2⟩
      exact ⟨B2, List.mem_cons_of_mem _ hm, h1, h2⟩
    rcases lintBlocks_cases lint config B with hb | ⟨hb, message, hl⟩ | ⟨hb, lr, hl⟩
    · rw [lintBlocks_cons_blank _ _ _ _ _ _ _ hb] at h
      rcases ih _ _ o h with h | h
      · exact Or.inl h
      · exact Or.inr (shift h)
    · rw [lintBlocks_cons_throw _ _ _ _ _ _ _ _ hb hl] at h
      simp only [finalState, List.mem_append, List.mem_singleton] at h
      rcases h with h | h
      · exact Or.inl h
      · exact Or.inr ⟨B, List.mem_cons_self _ _, hb, h⟩
    · rw [lintBlocks_cons_ok _ _ _ _ _ _ _ _ hb hl] at h
      rcases ih _ _ o h with h | h
      · simp only [List.mem_append, List.mem_singleton] at h
        rcases h with h | h
        · exact Or.inl h
        · exact Or.inr ⟨B, List.mem_cons_self _ _, hb, h⟩
      · exact Or.inr (shift h)

theorem cleanTrace_snoc (lint : Checker) (checked : List LintOptions) (o : LintOptions)
    (lr : LintResults) (h : CleanTrace lint checked) (hl : lint o = Except.ok lr) :
    CleanTrace lint (checked ++ [o]) := by
  intro x hx
  simp only [List.mem_append, List.mem_singleton] at hx
  rcases hx with hx | rfl
  · exact h x hx
  · exact ⟨lr, hl⟩

theorem lintBlocks_trace (lint : Checker) (config : Config) (rel : String)
    (blocks : List Block) :
    ∀ (index : Nat) (st : RunState), CleanTrace lint st.checked →
      (∀ st2, lintBlocks lint config rel index blocks st = Except.ok st2 →
        CleanTrace lint st2.checked) ∧
      (∀ thrown, lintBlocks lint config rel index blocks st = Except.error thrown →
        ThrowTrace lint thrown.message thrown.state.checked) := by
  induction blocks with
  | nil =>
    intro index st hc
    refine ⟨fun st2 h => ?_, fun thrown h => ?_⟩
    · simp only [lintBlocks, Except.ok.injEq] at h
      subst h
      exact hc
    · simp [lintBlocks] at h
  | cons B rest ih =>
    intro index st hc
    rcases lintBlocks_cases lint config B with hb | ⟨hb, message, hl⟩ | ⟨hb, lr, hl⟩
    · rw [lintBlocks_cons_blank _ _ _ _ _ _ _ hb]
      exact ih _ _ hc
    · rw [lintBlocks_cons_throw _ _ _ _ _ _ _ _ hb hl]
      refine ⟨fun st2 h => by simp at h, fun thrown h => ?_⟩
      simp only [Except.error.injEq] at h
      subst h
      exact ⟨st.checked, _, rfl, hl, hc⟩
    · rw [lintBlocks_cons_ok _ _ _ _ _ _ _ _ hb hl]
      exact ih _ _ (cleanTrace_snoc lint _ _ lr hc hl)

theorem lintBlocks_throw_of_mem (lint : Checker) (config : Config) (rel : String)
    (B : Block) (message : String) (hb : hasNonBlankText B.content = true)
    (hl : lint (lintOptionsOf B.content config) = Except.error message) (blocks : List Block) :
    B ∈ blocks → ∀ (index : Nat) (st : RunState),
      ∃ thrown, lintBlocks lint config rel index blocks st = Except.error thrown := by
  induction blocks with
  | nil => intro h; simp at h
  | cons B0 rest ih =>
    intro hmem index st
    rcases lintBlocks_cases lint config B0 with hb0 | ⟨hb0, m0, hl0⟩ | ⟨hb0, lr, hl0⟩
    · rw [lintBlocks_cons_blank _ _ _ _ _ _ _ hb0]
      rcases List.mem_cons.1 hmem with rfl | hmem
      · rw [hb] at hb0; cases hb0
      · exact ih hmem _ _
    · rw [lintBlocks_cons_throw _ _ _ _ _ _ _ _ hb0 hl0]
      exact ⟨_, rfl⟩
    · rw [lintBlocks_cons_ok _ _ _ _ _ _ _ _ hb0 hl0]
      rcases List.mem_cons.1 hmem with rfl | hmem
      · rw [hl] at hl0; cases hl0
      · exact ih hmem _ _

theorem lintBlocks_blank_index (lint : Checker) (config : Config) (rel : String)
    (blocks : List Block) (st : RunState) (i : Nat) (B : Block)
    (hi : blocks[i]? = some B) (hb : hasNonBlankText B.content = false) :
    ∀ res ∈ (finalState (lintBlocks lint config rel 0 blocks st)).allResults,
      res ∈ st.allResults ∨ res.blockIndex ≠ i + 1 := by
  intro res hres
  rcases lintBlocks_results_sound lint config rel blocks 0 st res hres with h | h
  · exact Or.inl h
  · obtain ⟨j, B2, lr, hj, hnb, _, _, rfl⟩ := h
    refine Or.inr ?_
    intro hidx
    simp only [blockResultOf] at hidx
    have : j = i := by omega
    subst this
    rw [hi] at hj
    cases hj
    rw [hb] at hnb
    cases hnb

theorem lintBlocks_returns (lint : Checker) (config : Config) (rel : String)
    (blocks : List Block)
    (hok : ∀ B ∈ blocks, hasNonBlankText B.content = true →
      ∃ lr, lint (lintOptionsOf B.content config) = Except.ok lr) :
    ∀ (index : Nat) (st : RunState),
      ∃ st2, lintBlocks lint config rel index blocks st = Except.ok st2 := by
  induction blocks with
  | nil => intro index st; exact ⟨st, rfl⟩
  | cons B rest ih =>
    intro index st
    have hrest := ih (fun B2 hB2 => hok B2 (List.mem_cons_of_mem _ hB2))
    rcases lintBlocks_cases lint config B with hb | ⟨hb, message, hl⟩ | ⟨hb, lr, hl⟩
    · rw [lintBlocks_cons_blank _ _ _ _ _ _ _ hb]
      exact hrest _ _
    · obtain ⟨r, hr⟩ := hok B (List.mem_cons_self _ _) hb
      rw [hl] at hr
      cases hr
    · rw [lintBlocks_cons_ok _ _ _ _ _ _ _ _ hb hl]
      exact hrest _ _

theorem lintBlocks_ok_calls (lint : Checker) (config : Config) (rel : String)
    (blocks : List Block) (index : Nat) (st st2 : RunState)
    (h : lintBlocks lint config rel index blocks st = Except.ok st2) :
    ∀ B ∈ blocks, hasNonBlankText B.content = true →
      ∃ lr, lint (lintOptionsOf B.content config) = Except.ok lr := by
  intro B hB hb
  cases hl : lint (lintOptionsOf B.content config) with
  | ok lr => exact ⟨lr, rfl⟩
  | error message =>
    obtain ⟨thrown, ht⟩ := lintBlocks_throw_of_mem lint config rel B message hb hl blocks hB
      index st
    rw [ht] at h
    cases h

/-- One round of the file loop; for a file without blocks the block loop has
nothing to do, so the test of line 276 needs no case of its own. -/
theorem processFiles_cons (env : Env) (engine : Engine) (config : Config) (file : String)
    (rest : List String) (st : RunState) :
    processFiles env engine config (file :: rest) st =
      match extractMarkdownFences env.parse env.readFile engine file with
      | Except.error message => Except.error { message := message, state := st }
      | Except.ok blocks =>
        match lintBlocks env.lint config (env.relative file) 0 blocks
            { st with totalBlocks := st.totalBlocks + blocks.length } with
        | Except.error thrown => Except.error thrown
        | Except.ok st1 => processFiles env engine config rest st1 := by
  rw [processFiles]
  cases extractMarkdownFences env.parse env.readFile engine file with
  | error message => rfl
  | ok blocks =>
    cases blocks with
    | nil => simp [lintBlocks]
    | cons B bs => simp

/-- The ways one round of the file loop can go. -/
theorem processFiles_cons_cases (env : Env) (engine : Engine) (config : Config)
    (file : String) (rest : List String) (st : RunState) :
    (∃ message, extractMarkdownFences env.parse env.readFile engine file
          = Except.error message ∧
        processFiles env engine config (file :: rest) st =
          Except.error { message := message, state := st }) ∨
    (∃ blocks, extractMarkdownFences env.parse env.readFile engine file = Except.ok blocks ∧
      ((∃ thrown, lintBlocks env.lint config (env.relative file) 0 blocks
            { st with totalBlocks := st.totalBlocks + blocks.length } = Except.error thrown ∧
          processFiles env engine config (file :: rest) st = Except.error thrown) ∨
       (∃ st1, lintBlocks env.lint config (env.relative file) 0 blocks
            { st with totalBlocks := st.totalBlocks + blocks.length } = Except.ok st1 ∧
          processFiles env engine config (file :: rest) st =
            processFiles env engine config rest st1))) := by
  rw [processFiles_cons]
  cases hx : extractMarkdownFences env.parse env.readFile engine file with
  | error message => exact Or.inl ⟨message, rfl, rfl⟩
  | ok blocks =>
    refine Or.inr ⟨blocks, rfl, ?_⟩
    cases hl : lintBlocks env.lint config (env.relative file) 0 blocks
        { st with totalBlocks := st.totalBlocks + blocks.length } with
    | error thrown => exact Or.inl ⟨thrown, rfl, by simp only [hl]⟩
    | ok st1 => exact Or.inr ⟨st1, rfl, by simp only [hl]⟩

theorem processFiles_results_sound (env : Env) (engine : Engine) (config : Config)
    (files : List String) :
    ∀ (st : RunState),
      ∀ res ∈ (finalState (processFiles env engine config files st)).allResults,
        res ∈ st.allResults ∨ FromFiles env engine config files res := by
  induction files with
  | nil => intro st res hres; exact Or.inl hres
  | cons file rest ih =>
    intro st res hres
    rcases processFiles_cons_cases env engine config file rest st with
      ⟨message, _, hp⟩ | ⟨blocks, hx, hcase⟩
    · rw [hp] at hres
      exact Or.inl hres
    · have hloop := lintBlocks_results_sound env.lint config (env.relative file) blocks 0
        { st with totalBlocks := st.totalBlocks + blocks.length } res
      have here : (∃ i B lr, blocks[i]? = some B ∧ hasNonBlankText B.content = true ∧
            env.lint (lintOptionsOf B.content config) = Except.ok lr ∧
            0 < (errorsOf lr).length ∧
            res = blockResultOf (env.relative file) (0 + i) B (errorsOf lr)) →
          FromFiles env engine config (file :: rest) res := by
        rintro ⟨i, B, lr, h1, h2, h3, h4, h5⟩
        exact ⟨file, List.mem_cons_self _ _, blocks, hx, i, B, lr, h1, h2, h3, h4,
          by simpa using h5⟩
      rcases hcase with ⟨thrown, hl, hp⟩ | ⟨st1, hl, hp⟩
      · rw [hp] at hres
        rw [hl] at hloop
        rcases hloop hres with h1 | h1
        · exact Or.inl h1
        · exact Or.inr (here h1)
      · rw [hp] at hres
        rw [hl] at hloop
        rcases ih st1 res hres with h1 | ⟨f, hf, bs, hb, hfrom⟩
        · rcases hloop h1 with h2 | h2
          · exact Or.inl h2
          · exact Or.inr (here h2)
        · exact Or.inr ⟨f, List.mem_cons_of_mem _ hf, bs, hb, hfrom⟩

theorem processFiles_results_complete (env : Env) (engine : Engine) (config : Config)
    (files : List String) :
    ∀ (st st2 : RunState),
      processFiles env engine config files st = Except.ok st2 →
      (∀ res ∈ st.allResults, res ∈ st2.allResults) ∧
      ∀ res, FromFiles env engine config files res → res ∈ st2.allResults := by
  induction files with
  | nil =>
    intro st st2 h
    simp only [processFiles, Except.ok.injEq] at h
    subst h
    refine ⟨fun _ h => h, ?_⟩
    rintro res ⟨f, hf, _⟩
    simp at hf
  | cons file rest ih =>
    intro st st2 h
    rcases processFiles_cons_cases env engine config file rest st with
      ⟨message, _, hp⟩ | ⟨blocks, hx, hcase⟩
    · rw [hp] at h
      cases h
    · rcases hcase with ⟨thrown, _, hp⟩ | ⟨st1, hl, hp⟩
      · rw [hp] at h
        cases h
      · rw [hp] at h
        obtain ⟨k1, k2⟩ := lintBlocks_results_complete env.lint config (env.relative file)
          blocks 0 _ st1 hl
        obtain ⟨m1, m2⟩ := ih st1 st2 h
        refine ⟨fun res hres => m1 res (k1 res hres), ?_⟩
        rintro res ⟨f, hf, bs, hb, i, B, lr, h1, h2, h3, h4, h5⟩
        rcases List.mem_cons.1 hf with rfl | hf
        · rw [hx] at hb
          cases hb
          have := k2 i B lr h1 h2 h3 h4
          rw [Nat.zero_add] at this
          rw [h5]
          exact m1 _ this
        · exact m2 res ⟨f, hf, bs, hb, i, B, lr, h1, h2, h3, h4, h5⟩

theorem processFiles_checked_sound (env : Env) (engine : Engine) (config : Config)
    (files : List String) :
    ∀ (st : RunState),
      ∀ options ∈ (finalState (processFiles env engine config files st)).checked,
        options ∈ st.checked ∨
        ∃ file ∈ files, ∃ blocks,
          extractMarkdownFences env.parse env.readFile engine file = Except.ok blocks ∧
          ∃ B ∈ blocks, hasNonBlankText B.content = true ∧
            options = lintOptionsOf B.content config := by
  induction files with
  | nil => intro st o ho; exact Or.inl ho
  | cons file rest ih =>
    intro st o ho
    rcases processFiles_cons_cases env engine config file rest st with
      ⟨message, _, hp⟩ | ⟨blocks, hx, hcase⟩
    · rw [hp] at ho
      exact Or.inl ho
    · have hloop := lintBlocks_checked_sound env.lint config (env.relative file) blocks 0
        { st with totalBlocks := st.totalBlocks + blocks.length } o
      have here : (∃ B ∈ blocks, hasNonBlankText B.content = true ∧
            o = lintOptionsOf B.content config) →
          ∃ f ∈ file :: rest, ∃ bs,
            extractMarkdownFences env.parse env.readFile engine f = Except.ok bs ∧
            ∃ B ∈ bs, hasNonBlankText B.content = true ∧ o = lintOptionsOf B.content config :=
        fun hB => ⟨file, List.mem_cons_self _ _, blocks, hx, hB⟩
      rcases hcase with ⟨thrown, hl, hp⟩ | ⟨st1, hl, hp⟩
      · rw [hp] at ho
        rw [hl] at hloop
        rcases hloop ho with h1 | h1
        · exact Or.inl h1
        · exact Or.inr (here h1)
      · rw [hp] at ho
        rw [hl] at hloop
        rcases ih st1 o ho with h1 | ⟨f, hf, bs, hb, hB⟩
        · rcases hloop h1 with h2 | h2
          · exact Or.inl h2
          · exact Or.inr (here h2)
        · exact Or.inr ⟨f, List.mem_cons_of_mem _ hf, bs, hb, hB⟩

/-- The checker calls of the file loop: all returned when the loop completes;
when it throws, either the last call threw and the ones before returned, or
all calls returned and the extraction of one of the files threw. -/
theorem processFiles_trace (env : Env) (engine : Engine) (config : Config)
    (files : List String) :
    ∀ (st : RunState), CleanTrace env.lint st.checked →
      (∀ st2, processFiles env engine config files st = Except.ok st2 →
        CleanTrace env.lint st2.checked) ∧
      (∀ thrown, processFiles env engine config files st = Except.error thrown →
        ThrowTrace env.lint thrown.message thrown.state.checked ∨
        (CleanTrace env.lint thrown.state.checked ∧
          ∃ file ∈ files, extractMarkdownFences env.parse env.readFile engine file
            = Except.error thrown.message)) := by
  induction files with
  | nil =>
    intro st hc
    refine ⟨fun st2 h => ?_, fun thrown h => ?_⟩
    · simp only [processFiles, Except.ok.injEq] at h
      subst h
      exact hc
    · simp [processFiles] at h
  | cons file rest ih =>
    intro st hc
    rcases processFiles_cons_cases env engine config file rest st with
      ⟨message, hx, hp⟩ | ⟨blocks, hx, hcase⟩
    · rw [hp]
      refine ⟨fun st2 h => (by cases h), fun thrown h => ?_⟩
      simp only [Except.error.injEq] at h
      subst h
      exact Or.inr ⟨hc, file, List.mem_cons_self _ _, hx⟩
    · have hloop := lintBlocks_trace env.lint config (env.relative file) blocks 0
        { st with totalBlocks := st.totalBlocks + blocks.length } hc
      rcases hcase with ⟨th, hl, hp⟩ | ⟨st1, hl, hp⟩
      · rw [hp]
        refine ⟨fun st2 h => (by cases h), fun thrown h => ?_⟩
        simp only [Except.error.injEq] at h
        subst h
        exact Or.inl (hloop.2 th hl)
      · rw [hp]
        obtain ⟨k1, k2⟩ := ih st1 (hloop.1 st1 hl)
        refine ⟨k1, fun thrown h => ?_⟩
        rcases k2 thrown h with h1 | ⟨h1, f, hf, hfx⟩
        · exact Or.inl h1
        · exact Or.inr ⟨h1, f, List.mem_cons_of_mem _ hf, hfx⟩

/-- The file loop completes exactly when nothing throws: every extraction
returns and the checker returns for every non-blank block. -/
theorem processFiles_ok_iff (env : Env) (engine : Engine) (config : Config)
    (files : List String) :
    ∀ (st : RunState),
      (∃ st2, processFiles env engine config files st = Except.ok st2) ↔
        NothingThrows env engine config files := by
  induction files with
  | nil =>
    intro st
    constructor
    · intro _ f hf
      simp at hf
    · intro _
      exact ⟨st, rfl⟩
  | cons file rest ih =>
    intro st
    rcases processFiles_cons_cases env engine config file rest st with
      ⟨message, hx, hp⟩ | ⟨blocks, hx, hcase⟩
    · rw [hp]
      constructor
      · rintro ⟨st2, h⟩
        cases h
      · intro hall
        obtain ⟨bs, hbs, _⟩ := hall file (List.mem_cons_self _ _)
        rw [hx] at hbs
        cases hbs
    · rcases hcase with ⟨thrown, hl, hp⟩ | ⟨st1, hl, hp⟩
      · rw [hp]
        constructor
        · rintro ⟨st2, h⟩
          cases h
        · intro hall
          obtain ⟨bs, hbs, hcalls⟩ := hall file (List.mem_cons_self _ _)
          rw [hx] at hbs
          cases hbs
          obtain ⟨st2, h2⟩ := lintBlocks_returns env.lint config (env.relative file) blocks
            hcalls 0 { st with totalBlocks := st.totalBlocks + blocks.length }
          rw [hl] at h2
          cases h2
      · rw [hp, ih st1]
        constructor
        · intro hall f hf
          rcases List.mem_cons.1 hf with rfl | hf
          · exact ⟨blocks, hx, lintBlocks_ok_calls env.lint config (env.relative f) blocks 0 _
              st1 hl⟩
          · exact hall f hf
        · intro hall f hf
          exact hall f (List.mem_cons_of_mem _ hf)

/-- The files after one whose extraction throws have no part in the run. -/
theorem processFiles_stops_at_throw (env : Env) (engine : Engine) (config : Config)
    (file : String) (message : String)
    (hx : extractMarkdownFences env.parse env.readFile engine file = Except.error message)
    (before after : List String) :
    ∀ (st : RunState),
      processFiles env engine config (before ++ file :: after) st =
        processFiles env engine config (before ++ [file]) st := by
  induction before with
  | nil =>
    intro st
    simp only [List.nil_append]
    rw [processFiles_cons, processFiles_cons, hx]
  | cons f fs ih =>
    intro st
    simp only [List.cons_append]
    rw [processFiles_cons, processFiles_cons]
    cases extractMarkdownFences env.parse env.readFile engine f with
    | error m => rfl
    | ok blocks =>
      simp only
      cases lintBlocks env.lint config (env.relative f) 0 blocks
          { st with totalBlocks := st.totalBlocks + blocks.length } with
      | error thrown => rfl
      | ok st1 => exact ih st1

theorem main_cases (env : Env) (engine : Engine) (config : Config) (files : List String) :
    (∃ st, processFiles env engine config files
          { totalBlocks := 0, allResults := [], checked := [] } = Except.ok st ∧
        main env engine config files =
          { exitCode := if (displayResults st.allResults).2 then 1 else 0,
            displayed := some (displayResults st.allResults), caught := none, state := st }) ∨
    (∃ thrown, processFiles env engine config files
          { totalBlocks := 0, allResults := [], checked := [] } = Except.error thrown ∧
        main env engine config files =
          { exitCode := 1, displayed := none, caught := some thrown.message,
            state := thrown.state }) := by
  unfold main
  cases hp : processFiles env engine config files
      { totalBlocks := 0, allResults := [], checked := [] } with
  | error thrown => exact Or.inr ⟨thrown, rfl, rfl⟩
  | ok st => exact Or.inl ⟨st, rfl, rfl⟩

/-- The state a run of `main` ends in is the state its file loop ends in. -/
theorem main_state (env : Env) (engine : Engine) (config : Config) (files : List String) :
    (main env engine config files).state =
      finalState (processFiles env engine config files
        { totalBlocks := 0, allResults := [], checked := [] }) := by
  rcases main_cases env engine config files with ⟨st, hp, hm⟩ | ⟨thrown, hp, hm⟩
  · rw [hm, hp]; rfl
  · rw [hm, hp]; rfl

theorem main_results_from_files (env : Env) (engine : Engine) (config : Config)
    (files : List String) :
    ∀ res ∈ (main env engine config files).state.allResults,
      FromFiles env engine config files res := by
  intro res hres
  rw [main_state] at hres
  rcases processFiles_results_sound env engine config files _ res hres with h1 | h1
  · simp at h1
  · exact h1

theorem main_checked_from_blocks (env : Env) (engine : Engine) (config : Config)
    (files : List String) :
    ∀ options ∈ (main env engine config files).state.checked, ∃ file ∈ files, ∃ blocks,
      extractMarkdownFences env.parse env.readFile engine file = Except.ok blocks ∧
      ∃ B ∈ blocks, hasNonBlankText B.content = true ∧
        options = lintOptionsOf B.content config := by
  intro options ho
  rw [main_state] at ho
  rcases processFiles_checked_sound env engine config files _ options ho with h1 | h1
  · simp at h1
  · exact h1

/-- The loop of `displayResults` sets `hasErrors` exactly when some record has
a finding. -/
theorem displayLoop_hasErrors (results : List BlockResult) :
    ∀ acc : List String × Bool,
      (displayLoop results acc).2 = true ↔
        acc.2 = true ∨ ∃ res ∈ results, res.errors.length ≠ 0 := by
  induction results with
  | nil => intro acc; simp [displayLoop]
  | cons res rest ih =>
    intro acc
    rw [displayLoop]
    by_cases he : res.errors.length = 0
    · rw [if_pos he, ih]
      constructor
      · rintro (h | ⟨x, hx, hne⟩)
        · exact Or.inl h
        · exact Or.inr ⟨x, List.mem_cons_of_mem _ hx, hne⟩
      · rintro (h | ⟨x, hx, hne⟩)
        · exact Or.inl h
        · rcases List.mem_cons.1 hx with rfl | hx
          · exact absurd he hne
          · exact Or.inr ⟨x, hx, hne⟩
    · rw [if_neg he, ih]
      constructor
      · intro _
        exact Or.inr ⟨res, List.mem_cons_self _ _, he⟩
      · intro _
        exact Or.inl rfl

theorem displayResults_hasErrors (allResults : List BlockResult) :
    (displayResults allResults).2 = true ↔ ∃ res ∈ allResults, res.errors.length ≠ 0 := by
  unfold displayResults
  by_cases h0 : allResults.length = 0
  · rw [if_pos h0]
    have : allResults = [] := List.length_eq_zero.1 h0
    subst this
    simp
  · rw [if_neg h0, displayLoop_hasErrors]
    simp

theorem displayLoop_mem (results : List BlockResult) :
    ∀ acc : List String × Bool,
      (∀ l ∈ acc.1, l ∈ (displayLoop results acc).1) ∧
      ∀ res ∈ results, ∀ e ∈ res.errors, ∀ l ∈ errorLines res e,
        l ∈ (displayLoop results acc).1 := by
  induction results with
  | nil =>
    intro acc
    exact ⟨fun l hl => by simpa [displayLoop] using hl, fun res hres => by simp at hres⟩
  | cons r rest ih =>
    intro acc
    rw [displayLoop]
    by_cases he : r.errors.length = 0
    · rw [if_pos he]
      obtain ⟨k1, k2⟩ := ih acc
      refine ⟨k1, ?_⟩
      intro res hres e hmem l hl
      rcases List.mem_cons.1 hres with rfl | hres
      · rw [List.length_eq_zero.1 he] at hmem
        simp at hmem
      · exact k2 res hres e hmem l hl
    · rw [if_neg he]
      obtain ⟨k1, k2⟩ := ih
        (acc.1 ++ resultHeaderLines r ++ (r.errors.map (errorLines r)).flatten ++ [""], true)
      refine ⟨fun l hl => k1 l (by simp [hl]), ?_⟩
      intro res hres e hmem l hl
      rcases List.mem_cons.1 hres with rfl | hres
      · apply k1
        simp only [List.mem_append, List.mem_flatten, List.mem_map]
        exact Or.inl (Or.inr ⟨errorLines res e, ⟨e, hmem, rfl⟩, hl⟩)
      · exact k2 res hres e hmem l hl

theorem displayResults_mem (allResults : List BlockResult) (res : BlockResult)
    (hres : res ∈ allResults) (e : LintError) (he : e ∈ res.errors) :
    ∀ l ∈ errorLines res e, l ∈ (displayResults allResults).1 := by
  unfold displayResults
  have h0 : ¬ allResults.length = 0 := by
    intro h
    rw [List.length_eq_zero.1 h] at hres
    simp at hres
  rw [if_neg h0]
  exact (displayLoop_mem allResults _).2 res hres e he

theorem filter_length_add (l : List Block) (p : Block → Bool) :
    (l.filter p).length + (l.filter (fun B => !p B)).length = l.length := by
  induction l with
  | nil => rfl
  | cons a l ih =>
    cases hp : p a
    · simp [List.filter_cons, hp]; omega
    · simp [List.filter_cons, hp]; omega

/-- For a non-blank block at position `i`, the position in the full list is the
position among the non-blank blocks plus the number of blank blocks before. -/
theorem index_eq_nonBlankPosition_add (blocks : List Block) (i : Nat) (B : Block)
    (hi : blocks[i]? = some B) (hb : hasNonBlankText B.content = true) :
    i + 1 = nonBlankPosition blocks i + blankBefore blocks i := by
  have hlt : i < blocks.length := by
    by_contra hge
    rw [List.getElem?_eq_none (by omega)] at hi
    cases hi
  unfold nonBlankPosition blankBefore
  rw [List.take_succ, hi]
  have hlen : (blocks.take i).length = i := by
    rw [List.length_take]; omega
  have hsum := filter_length_add (blocks.take i) (fun B => hasNonBlankText B.content)
  simp only [Option.toList, List.filter_append, List.length_append, List.filter_cons, hb,
    if_true, List.filter_nil, List.length_singleton]
  omega

theorem config_get_set_same (key : String) (value : ConfigValue) (config : Config) :
    (Config.set key value config).get key = some value := by
  induction config with
  | nil => simp [Config.set, Config.get, List.lookup]
  | cons p rest ih =>
    obtain ⟨k, v⟩ := p
    by_cases hk : k = key
    · simp [Config.set, Config.get, List.lookup, hk]
    · have hne : (key == k) = false := by simpa using fun h => hk h.symm
      simp only [Config.set, if_neg hk, Config.get, List.lookup, hne]
      exact ih

theorem config_get_set_other (key other : String) (value : ConfigValue) (config : Config)
    (hne : other ≠ key) : (Config.set key value config).get other = config.get other := by
  induction config with
  | nil =>
    have : (other == key) = false := by simpa using hne
    simp [Config.set, Config.get, List.lookup, this]
  | cons p rest ih =>
    obtain ⟨k, v⟩ := p
    by_cases hk : k = key
    · subst hk
      have : (other == k) = false := by simpa using hne
      simp [Config.set, Config.get, List.lookup, this]
    · simp only [Config.set, if_neg hk, Config.get, List.lookup]
      cases hok : other == k with
      | true => rfl
      | false => exact ih

/-! ## Lemmas on the sample documents -/

theorem sampleParse_decreases : NestingDecreases sampleParse String.length := by
  intro s t ht hm hb
  unfold sampleParse at ht
  split_ifs at ht with h1 h2 h3 h4 h5 h6 h7
  · subst h1
    simp only [List.mem_cons, List.mem_singleton, List.not_mem_nil, or_false] at ht
    rcases ht with rfl | rfl | rfl | rfl
    · exact absurd hm (by decide)
    · exact absurd hm (by decide)
    · exact absurd hm (by decide)
    · decide
  · subst h2
    simp only [List.mem_singleton] at ht
    subst ht
    decide
  · subst h3
    simp only [List.mem_cons, List.mem_singleton, List.not_mem_nil, or_false] at ht
    rcases ht with rfl | rfl
    · decide
    · decide
  · subst h4
    simp only [List.mem_cons, List.mem_singleton, List.not_mem_nil, or_false] at ht
    rcases ht with rfl | rfl | rfl | rfl | rfl
    · decide
    · decide
    · exact absurd hm (by decide)
    · exact absurd hm (by decide)
    · exact absurd hm (by decide)
  · subst h5
    simp only [paragraphTokens, List.mem_cons, List.mem_singleton, List.not_mem_nil,
      or_false] at ht
    rcases ht with rfl | rfl | rfl
    · exact absurd hm (by decide)
    · exact absurd hm (by decide)
    · exact absurd hm (by decide)
  · subst h6
    simp only [paragraphTokens, List.mem_cons, List.mem_singleton, List.not_mem_nil,
      or_false] at ht
    rcases ht with rfl | rfl | rfl
    · exact absurd hm (by decide)
    · exact absurd hm (by decide)
    · exact absurd hm (by decide)
  · subst h7
    simp only [paragraphTokens, List.mem_cons, List.mem_singleton, List.not_mem_nil,
      or_false] at ht
    rcases ht with rfl | rfl | rfl
    · exact absurd hm (by decide)
    · exact absurd hm (by decide)
    · exact absurd hm (by decide)
  · simp at ht

theorem takeWhile_ticks (k : Nat) (c : Char) (rest : List Char) (hc : (c == tick) = false) :
    (List.replicate k tick ++ c :: rest).takeWhile (fun c => c == tick) =
      List.replicate k tick := by
  induction k with
  | zero => simp [List.takeWhile_cons, hc]
  | succ k ih =>
    rw [List.replicate_succ, List.cons_append, List.takeWhile_cons]
    simp [ih]

theorem deepDoc_succ_data (n : Nat) :
    (deepDoc (n + 1)).data =
      List.replicate (n + 3) tick ++
        'm' :: ('d' :: '\n' :: ((deepDoc n).data ++ (List.replicate (n + 3) tick ++ ['\n']))) := by
  simp [deepDoc, ticks, String.data_append]

theorem leadingTicks_deepDoc (n : Nat) : leadingTicks (deepDoc (n + 1)) = n + 3 := by
  unfold leadingTicks
  rw [deepDoc_succ_data, takeWhile_ticks _ _ _ (by decide)]
  simp

theorem deepParse_succ (n : Nat) : deepParse (deepDoc (n + 1)) = [deepToken n] := by
  unfold deepParse
  rw [leadingTicks_deepDoc]
  have e1 : n + 3 - 2 = n + 1 := by omega
  have e2 : n + 3 - 3 = n := by omega
  rw [e1, e2, if_pos ⟨by omega, rfl⟩]

theorem deepParse_zero : deepParse (deepDoc 0) = paragraphTokens "x" := by
  decide

theorem mem_dropWhile_of_not {α : Type} (p : α → Bool) (x : α) (l : List α)
    (hx : x ∈ l) (hp : p x = false) : x ∈ l.dropWhile p := by
  induction l with
  | nil => simp at hx
  | cons a l ih =>
    rw [List.dropWhile_cons]
    by_cases ha : p a = true
    · rw [if_pos ha]
      rcases List.mem_cons.1 hx with rfl | hx
      · rw [hp] at ha; cases ha
      · exact ih hx
    · rw [if_neg ha]
      exact hx

/-- A text with a character that is not white space has non-blank text. -/
theorem hasNonBlankText_of_mem (s : String) (c : Char) (hc : c ∈ s.data)
    (hw : isJsWhiteSpace c = false) : hasNonBlankText s = true := by
  have h1 := mem_dropWhile_of_not isJsWhiteSpace c _ hc hw
  have h2 := mem_dropWhile_of_not isJsWhiteSpace c _ (List.mem_reverse.2 h1) hw
  have h3 : c ∈ (jsTrim s).data := by
    unfold jsTrim
    exact List.mem_reverse.2 h2
  have h4 : 0 < (jsTrim s).data.length := List.length_pos_of_mem h3
  unfold hasNonBlankText
  exact decide_eq_true h4

theorem deepDoc_nonBlank (n : Nat) : hasNonBlankText (deepDoc n) = true := by
  cases n with
  | zero => decide
  | succ n =>
    apply hasNonBlankText_of_mem _ 'm'
    · rw [deepDoc_succ_data]; simp
    · decide

theorem deepToken_isMarkdownFence (n : Nat) : isMarkdownFence (deepToken n) = true := by
  rfl

/-- Extraction of `deepDoc n` returns a list of `n` blocks as soon as the stack
has room for more than `n` nested calls and argument lists of up to `n` blocks
are accepted. -/
theorem deep_result (sf : Nat → Nat → Bool) (n : Nat) :
    ∀ room, n < room → (∀ k m, m ≤ n → sf k m = true) →
      ∀ filePath baseLine depth parentPath,
        ∃ r, extractMarkdownFencesRecursive deepParse sf room (deepDoc n) filePath baseLine
          depth parentPath = Except.ok r ∧ r.length = n := by
  induction n with
  | zero =>
    intro room hr _ fp b d pp
    obtain ⟨k, rfl⟩ : ∃ k, room = k + 1 := ⟨room - 1, by omega⟩
    refine ⟨[], ?_, rfl⟩
    rw [extractMarkdownFencesRecursive, deepParse_zero]
    rfl
  | succ n ih =>
    intro room hr hsf fp b d pp
    obtain ⟨k, rfl⟩ : ∃ k, room = k + 1 := ⟨room - 1, by omega⟩
    obtain ⟨r, hrec, hlen⟩ := ih k (by omega) (fun k m hm => hsf k m (by omega)) fp
      (blockLineOf b (deepToken n)) (d + 1) (blockPathOf pp (blockLineOf b (deepToken n)))
    refine ⟨blockInfoOf fp b d pp (deepToken n) :: (r ++ []), ?_, by simp [hlen]⟩
    rw [extractMarkdownFencesRecursive, deepParse_succ,
      extractTokens_cons_md _ _ _ _ _ _ _ _ _ (deepToken_isMarkdownFence n)]
    refine ⟨r, [], ⟨fun _ => ⟨hrec, hsf k _ (by omega)⟩, fun hx => ?_⟩, rfl, rfl⟩
    have := deepDoc_nonBlank n
    rw [show (deepToken n).content = deepDoc n from rfl, this] at hx
    cases hx

/-- Below `deepDoc (n + 1)` there is a chain of `n` nested matching fences. -/
theorem deep_chain (n : Nat) :
    ∃ chain t, chain.length = n ∧ FenceChain deepParse (deepParse (deepDoc (n + 1))) chain t := by
  induction n with
  | zero =>
    refine ⟨[], deepToken 0, rfl, FenceChain.direct ?_ (deepToken_isMarkdownFence 0)⟩
    rw [deepParse_succ]; simp
  | succ n ih =>
    obtain ⟨chain, t, hlen, hc⟩ := ih
    refine ⟨deepToken (n + 1) :: chain, t, by simp [hlen], ?_⟩
    refine FenceChain.inside ?_ (deepToken_isMarkdownFence _) (deepDoc_nonBlank (n + 1)) hc
    rw [deepParse_succ]; simp

/-- Extraction of `deepDoc (n + 1)` returns a block of depth `n`. -/
theorem deep_block (sf : Nat → Nat → Bool) (n room : Nat) (hroom : n + 1 < room)
    (hsf : ∀ k m, m ≤ n + 1 → sf k m = true) (filePath : String) :
    ∃ r, extractMarkdownFencesRecursive deepParse sf room (deepDoc (n + 1)) filePath 0 0 ""
        = Except.ok r ∧ ∃ B ∈ r, B.depth = n := by
  obtain ⟨r, hr, _⟩ := deep_result sf (n + 1) room hroom hsf filePath 0 0 ""
  obtain ⟨chain, t, hlen, hc⟩ := deep_chain n
  refine ⟨r, hr, blockAt filePath 0 0 "" chain t,
    extract_complete deepParse _ _ _ _ _ _ _ _ hr chain t hc, ?_⟩
  rw [blockAt_depth, hlen, Nat.zero_add]

/-- Extraction of `deepDoc n` throws when the stack has room for `n` nested
calls or less. -/
theorem deep_overflow (sf : Nat → Nat → Bool) (room : Nat) :
    ∀ n, room ≤ n → ∀ filePath baseLine depth parentPath,
      extractMarkdownFencesRecursive deepParse sf room (deepDoc n) filePath baseLine depth
        parentPath = Except.error rangeError := by
  induction room with
  | zero => intro n _ fp b d pp; rfl
  | succ k ih =>
    intro n hn fp b d pp
    obtain ⟨m, rfl⟩ : ∃ m, n = m + 1 := ⟨n - 1, by omega⟩
    have hnb : hasNonBlankText (deepToken m).content = true := deepDoc_nonBlank m
    rw [extractMarkdownFencesRecursive, deepParse_succ, extractTokens,
      if_pos (deepToken_isMarkdownFence m), if_pos hnb]
    have := ih m (by omega) fp (blockLineOf b (deepToken m)) (d + 1)
      (blockPathOf pp (blockLineOf b (deepToken m)))
    rw [show (deepToken m).content = deepDoc m from rfl, this]

/-! ## Lemmas on the string primitives -/

/-- Apart from the Kelvin sign, `jsLowerChar` is the lower-casing of letters
`A` to `Z` as the library function `Char.toLower` does it. -/
theorem jsLowerChar_eq_toLower (c : Char) (h : c.toNat ≠ 0x212A) :
    jsLowerChar c = c.toLower := by
  unfold jsLowerChar Char.toLower
  by_cases hr : 0x41 ≤ c.toNat ∧ c.toNat ≤ 0x5A
  · have hr2 : c.toNat ≥ 65 ∧ c.toNat ≤ 90 := hr
    simp only [hr, hr2, and_self, if_true]
  · have hr2 : ¬ (c.toNat ≥ 65 ∧ c.toNat ≤ 90) := hr
    simp only [hr, hr2, if_false, h]

theorem head?_dropWhile_false {α : Type} (p : α → Bool) (l : List α) (c : α)
    (h : (l.dropWhile p).head? = some c) : p c = false := by
  have := List.head?_dropWhile_not p l
  rw [h] at this
  exact this

theorem getLast?_dropWhile {α : Type} (p : α → Bool) (l : List α) (c : α) :
    (l.dropWhile p).getLast? = some c → l.getLast? = some c := by
  induction l with
  | nil => intro h; simp at h
  | cons a l ih =>
    rw [List.dropWhile_cons]
    by_cases ha : p a = true
    · rw [if_pos ha]
      intro h
      have hl := ih h
      cases l with
      | nil => simp at hl
      | cons b l => simpa using hl
    · rw [if_neg ha]
      exact fun h => h

/-- The method `trim` takes white space off both ends and nothing else: the
text is the trimmed text between two runs of white space, and the trimmed text
neither starts nor ends with white space. -/
theorem jsTrim_spec (s : String) :
    ∃ pre post, s.data = pre ++ (jsTrim s).data ++ post ∧
      (∀ c ∈ pre, isJsWhiteSpace c = true) ∧ (∀ c ∈ post, isJsWhiteSpace c = true) ∧
      (∀ c, (jsTrim s).data.head? = some c → isJsWhiteSpace c = false) ∧
      (∀ c, (jsTrim s).data.getLast? = some c → isJsWhiteSpace c = false) := by
  have htrim : (jsTrim s).data =
      (((s.data.dropWhile isJsWhiteSpace).reverse).dropWhile isJsWhiteSpace).reverse := rfl
  refine ⟨s.data.takeWhile isJsWhiteSpace,
    (((s.data.dropWhile isJsWhiteSpace).reverse).takeWhile isJsWhiteSpace).reverse, ?_, ?_, ?_,
    ?_, ?_⟩
  · rw [htrim, List.append_assoc, ← List.reverse_append, List.takeWhile_append_dropWhile,
      List.reverse_reverse, List.takeWhile_append_dropWhile]
  · intro c hc
    exact List.mem_takeWhile_imp hc
  · intro c hc
    exact List.mem_takeWhile_imp (List.mem_reverse.1 hc)
  · intro c hc
    rw [htrim, List.head?_reverse] at hc
    have h1 := getLast?_dropWhile _ _ _ hc
    rw [List.getLast?_reverse] at h1
    exact head?_dropWhile_false _ _ _ h1
  · intro c hc
    rw [htrim, List.getLast?_reverse] at hc
    exact head?_dropWhile_false _ _ _ hc

/-! ## Lemmas on exceptions of the extraction -/

theorem extractTokens_error (fits : Nat → Bool)
    (recurse : String → String → Nat → Nat → String → Except String (List Block))
    (hrec : ∀ c f b d p message, recurse c f b d p = Except.error message →
      message = rangeError)
    (filePath : String) (baseLine depth : Nat) (parentPath : String) (ts : List Token) :
    ∀ message, extractTokens fits recurse filePath baseLine depth parentPath ts
        = Except.error message → message = rangeError := by
  induction ts with
  | nil => intro message h; simp [extractTokens] at h
  | cons t ts ih =>
    intro message h
    rw [extractTokens] at h
    by_cases hm : isMarkdownFence t = true
    · rw [if_pos hm] at h
      by_cases hb : hasNonBlankText t.content = true
      · rw [if_pos hb] at h
        cases hr : recurse t.content filePath (blockLineOf baseLine t) (depth + 1)
            (blockPathOf parentPath (blockLineOf baseLine t)) with
        | error e =>
          rw [hr] at h
          cases h
          exact hrec _ _ _ _ _ _ hr
        | ok nestedBlocks =>
          rw [hr] at h
          by_cases hf : fits nestedBlocks.length = true
          · simp only [hf, if_true] at h
            cases hrest : extractTokens fits recurse filePath baseLine depth parentPath ts with
            | error e =>
              rw [hrest] at h
              cases h
              exact ih _ hrest
            | ok more =>
              rw [hrest] at h
              cases h
          · simp only [hf, if_false] at h
            cases h
            rfl
      · rw [if_neg hb] at h
        cases hrest : extractTokens fits recurse filePath baseLine depth parentPath ts with
        | error e =>
          rw [hrest] at h
          cases h
          exact ih _ hrest
        | ok more =>
          rw [hrest] at h
          cases h
    · rw [if_neg hm] at h
      exact ih _ h

/-- The only exception of the extraction is the `RangeError` of the engine. -/
theorem extract_error (parse : String → List Token) (sf : Nat → Nat → Bool) (room : Nat) :
    ∀ content filePath baseLine depth parentPath message,
      extractMarkdownFencesRecursive parse sf room content filePath baseLine depth parentPath
        = Except.error message → message = rangeError := by
  induction room with
  | zero =>
    intro c f b d p message h
    simp only [extractMarkdownFencesRecursive, Except.error.injEq] at h
    exact h.symm
  | succ n ih =>
    intro c f b d p message h
    rw [extractMarkdownFencesRecursive] at h
    exact extractTokens_error _ _ ih _ _ _ _ _ _ h

theorem extractTokens_cons_blank (fits : Nat → Bool)
    (recurse : String → String → Nat → Nat → String → Except String (List Block))
    (filePath : String) (baseLine depth : Nat) (parentPath : String) (t : Token)
    (ts : List Token) (hm : isMarkdownFence t = true)
    (hb : hasNonBlankText t.content = false) :
    extractTokens fits recurse filePath baseLine depth parentPath (t :: ts) =
      Except.map (fun more => blockInfoOf filePath baseLine depth parentPath t :: more)
        (extractTokens fits recurse filePath baseLine depth parentPath ts) := by
  rw [extractTokens, if_pos hm, if_neg (by simp [hb])]
  cases extractTokens fits recurse filePath baseLine depth parentPath ts with
  | error e => rfl
  | ok more => rfl

/-- Enough room gives the result: when a measure decreases along the nesting
and the stack has room for more nested calls than the measure of the content,
extraction returns on an engine that accepts every argument list, and returns
the same list on every engine with that room that accepts argument lists up to
the length of the result. -/
theorem extract_returns (parse : String → List Token) (sf : Nat → Nat → Bool) (room : Nat)
    (content filePath : String) (baseLine depth : Nat) (parentPath : String)
    (size : String → Nat) (hdecr : NestingDecreases parse size) (hroom : size content < room) :
    ∃ r, extractMarkdownFencesRecursive parse (fun _ _ => true) room content filePath baseLine
        depth parentPath = Except.ok r ∧
      ((∀ k n, n ≤ r.length → sf k n = true) →
        extractMarkdownFencesRecursive parse sf room content filePath baseLine depth parentPath
          = Except.ok r) := by
  obtain ⟨r, hr⟩ := extract_total parse size hdecr room content filePath baseLine depth
    parentPath hroom
  exact ⟨r, hr, fun hfits => extract_limited parse sf r.length hfits room _ _ _ _ _ _ hr
    (le_refl _)⟩

/-- The extraction of the file `deep.md` throws on the sample engine. -/
theorem deep_file_overflow :
    extractMarkdownFences deepParse deepFiles sampleEngine "/repo/deep.md" =
      Except.error rangeError := by
  unfold extractMarkdownFences
  have hfile : deepFiles "/repo/deep.md" = some (deepDoc 10000) := by
    unfold deepFiles
    rw [if_pos rfl]
  rw [hfile]
  exact deep_overflow _ 10000 10000 (le_refl _) _ _ _ _

/-- The file loop over `deep.md`, `flat.md` throws at the first file. -/
theorem deep_run_throws :
    processFiles deepEnv sampleEngine [] ["/repo/deep.md", "/repo/flat.md"]
      { totalBlocks := 0, allResults := [], checked := [] } =
    Except.error { message := rangeError,
                   state := { totalBlocks := 0, allResults := [], checked := [] } } := by
  rcases processFiles_cons_cases deepEnv sampleEngine [] "/repo/deep.md" ["/repo/flat.md"]
      { totalBlocks := 0, allResults := [], checked := [] } with
    ⟨message, hx, hp⟩ | ⟨blocks, hx, _⟩
  · have h1 : extractMarkdownFences deepParse deepFiles sampleEngine "/repo/deep.md" =
        Except.error message := hx
    rw [deep_file_overflow] at h1
    cases h1
    exact hp
  · have h1 : extractMarkdownFences deepParse deepFiles sampleEngine "/repo/deep.md" =
        Except.ok blocks := hx
    rw [deep_file_overflow] at h1
    cases h1

/-! ## Extraction: line composition, matching, order, depth -/

/-- C1.  Line composition.  For every parser, every engine, every document and
every base offset, when extraction returns the list `r`:
the block of every matching fence `t` of the document is in `r` with line
`baseLine + fenceLine t`; `r` is made of those blocks, each directly followed
by the extraction of its own content started at the block's line; every block
of `r` is the record of a chain of nested matching fences and its line is
`baseLine` plus the fence lines of the chain plus the fence line of its own
fence, its depth the start depth plus the length of the chain; every such chain
has its block in `r`; and any other engine that returns, returns `r`.  The line
depends on the chain of ancestors only, never on a sibling.  Extraction returns
when the stack has room beyond a measure that decreases along the nesting and
the argument lists are accepted.  The fence line of a token with a map is
`map[0] + 1`. -/
theorem extract_line_composition (parse : String → List Token)
    (spreadFits : Nat → Nat → Bool) (room : Nat) (content filePath : String)
    (baseLine depth : Nat) (parentPath : String) :
    (∀ r, extractMarkdownFencesRecursive parse spreadFits room content filePath baseLine depth
        parentPath = Except.ok r →
      (∀ t ∈ parse content, isMarkdownFence t = true →
        ∃ B ∈ r, B = blockInfoOf filePath baseLine depth parentPath t ∧ B.depth = depth ∧
          B.line = baseLine + fenceLine t) ∧
      BlocksOfStream parse filePath baseLine depth parentPath (parse content) r ∧
      (∀ B ∈ r, ∃ chain t, FenceChain parse (parse content) chain t ∧
        B = blockAt filePath baseLine depth parentPath chain t ∧
        B.line = baseLine + (chain.map fenceLine).sum + fenceLine t ∧
        B.depth = depth + chain.length) ∧
      (∀ chain t, FenceChain parse (parse content) chain t →
        ∃ B ∈ r, B = blockAt filePath baseLine depth parentPath chain t ∧
          B.line = baseLine + (chain.map fenceLine).sum + fenceLine t ∧
          B.depth = depth + chain.length) ∧
      (∀ sf2 room2 r2, extractMarkdownFencesRecursive parse sf2 room2 content filePath
        baseLine depth parentPath = Except.ok r2 → r2 = r)) ∧
    (∀ size, NestingDecreases parse size → size content < room →
      ∃ r, extractMarkdownFencesRecursive parse (fun _ _ => true) room content filePath
          baseLine depth parentPath = Except.ok r ∧
        ((∀ k n, n ≤ r.length → spreadFits k n = true) →
          extractMarkdownFencesRecursive parse spreadFits room content filePath baseLine
            depth parentPath = Except.ok r)) ∧
    (∀ (t : Token) (m : Nat × Nat), t.map = some m → fenceLine t = m.1 + 1) := by
  refine ⟨fun r hr => ⟨?_, ?_, ?_, ?_, ?_⟩, ?_, ?_⟩
  · intro t ht hm
    exact ⟨_, extract_complete parse _ _ _ _ _ _ _ _ hr [] t (FenceChain.direct ht hm),
      rfl, rfl, rfl⟩
  · cases room with
    | zero => exact absurd hr (extract_zero _ _ _ _ _ _ _ _)
    | succ n =>
      rw [extractMarkdownFencesRecursive] at hr
      exact extractTokens_blocksOfStream parse _ _ _ _ _ _ _ _ _ hr
  · intro B hB
    obtain ⟨chain, t, hc, rfl⟩ := extract_sound parse _ _ _ _ _ _ _ _ hr B hB
    exact ⟨chain, t, hc, rfl, blockAt_line _ _ _ _ _ _, blockAt_depth _ _ _ _ _ _⟩
  · intro chain t hc
    exact ⟨_, extract_complete parse _ _ _ _ _ _ _ _ hr chain t hc, rfl,
      blockAt_line _ _ _ _ _ _, blockAt_depth _ _ _ _ _ _⟩
  · intro sf2 room2 r2 h2
    exact extract_unique parse _ _ _ _ _ _ _ _ _ _ _ h2 hr
  · intro size hdecr hroom
    exact extract_returns parse spreadFits room content filePath baseLine depth parentPath
      size hdecr hroom
  · intro t m hm
    simp [fenceLine, hm]

/-- Witness of C1 on the sample file `a.md`: extraction returns the outer block
on line 2 and the inner block on line 2 + 2 = 4, and each line is the sum of
the fence lines of its chain. -/
theorem extract_line_composition_witness :
    extractMarkdownFences sampleParse sampleFiles sampleEngine "/repo/a.md" =
      Except.ok [sampleOuterBlock, sampleInnerBlock] ∧
    (∀ B ∈ [sampleOuterBlock, sampleInnerBlock], ∃ chain t,
      FenceChain sampleParse (sampleParse sampleRoot) chain t ∧
      B.line = 0 + (chain.map fenceLine).sum + fenceLine t ∧ B.depth = 0 + chain.length) ∧
    (∀ r2, extractMarkdownFencesRecursive sampleParse (fun _ _ => true) 3 sampleRoot
      "/repo/a.md" 0 0 "" = Except.ok r2 → r2 = [sampleOuterBlock, sampleInnerBlock]) := by
  have h := (extract_line_composition sampleParse sampleEngine.spreadFits
    sampleEngine.stackDepth sampleRoot "/repo/a.md" 0 0 "").1
    [sampleOuterBlock, sampleInnerBlock] rfl
  refine ⟨rfl, fun B hB => ?_, fun r2 h2 => h.2.2.2.2 _ _ _ h2⟩
  obtain ⟨chain, t, hc, _, hline, hdepth⟩ := h.2.2.1 B hB
  exact ⟨chain, t, hc, hline, hdepth⟩

/-- C2.  Matching.  A token is matched exactly when it is a fence whose info
string, trimmed and lower-cased, is `markdown` or `md`; when extraction returns,
the blocks found directly in the document (those at the start depth) are the
records of the matched tokens, in stream order, one per token, none left out,
merged or dropped as a duplicate; a token that is not matched is passed over
without a block and without the recursive call, whatever that call would
return.  Trimming takes white space off both ends only, lower-casing is that
of the letters `A` to `Z` (and of the Kelvin sign), and the listed info strings
match or fail to match as they do in JavaScript. -/
theorem extract_matches_markdown_fences (parse : String → List Token)
    (spreadFits : Nat → Nat → Bool) (room : Nat) (content filePath : String)
    (baseLine depth : Nat) (parentPath : String) :
    (∀ r, extractMarkdownFencesRecursive parse spreadFits room content filePath baseLine depth
        parentPath = Except.ok r →
      r.filter (fun B => B.depth == depth) =
        ((parse content).filter isMarkdownFence).map
          (blockInfoOf filePath baseLine depth parentPath)) ∧
    (∀ size, NestingDecreases parse size → size content < room →
      ∃ r, extractMarkdownFencesRecursive parse (fun _ _ => true) room content filePath
          baseLine depth parentPath = Except.ok r ∧
        ((∀ k n, n ≤ r.length → spreadFits k n = true) →
          extractMarkdownFencesRecursive parse spreadFits room content filePath baseLine
            depth parentPath = Except.ok r)) ∧
    (∀ t : Token, isMarkdownFence t = true ↔
      t.type = "fence" ∧ (jsToLowerCase (jsTrim t.info) = "markdown" ∨
        jsToLowerCase (jsTrim t.info) = "md")) ∧
    (∀ (fits : Nat → Bool)
        (recurse : String → String → Nat → Nat → String → Except String (List Block))
        (t : Token) (ts : List Token), isMarkdownFence t = false →
      extractTokens fits recurse filePath baseLine depth parentPath (t :: ts) =
        extractTokens fits recurse filePath baseLine depth parentPath ts) ∧
    (∀ s : String, ∃ pre post, s.data = pre ++ (jsTrim s).data ++ post ∧
      (∀ c ∈ pre, isJsWhiteSpace c = true) ∧ (∀ c ∈ post, isJsWhiteSpace c = true) ∧
      (∀ c, (jsTrim s).data.head? = some c → isJsWhiteSpace c = false) ∧
      (∀ c, (jsTrim s).data.getLast? = some c → isJsWhiteSpace c = false)) ∧
    (∀ s : String, (jsToLowerCase s).data = s.data.map jsLowerChar) ∧
    (∀ c : Char, c.toNat ≠ 0x212A → jsLowerChar c = c.toLower) ∧
    jsLowerChar (Char.ofNat 0x212A) = 'k' ∧
    (["markdown", "md", "Markdown", "MARKDOWN", "MarkDown", "MD", "Md", "mD", " md", "md ",
      "  markdown\t", " MarkDown ", " MD ", "\nmd\r\n", "\u00a0md\u2003",
      "\ufeffmarkdown", "MAR\u212aDOWN"].all
        (fun info => isMarkdownFence { type := "fence", info := info, content := "", map := none }))
      = true ∧
    (["", " ", "js", "markdownx", "xmarkdown", "mdx", "mark down", "m d", "markdown md",
      "md,markdown", "text", "MARKDOWN2", "markdown-it", "mark\tdown", "\u200bmd",
      "md\u200b"].all
        (fun info => !isMarkdownFence { type := "fence", info := info, content := "", map := none }))
      = true ∧
    (["code_block", "inline", "paragraph_open", "html_block", "Fence", ""].all
        (fun type => !isMarkdownFence { type := type, info := "md", content := "", map := none }))
      = true := by
  refine ⟨fun r hr => ?_, ?_, ?_, ?_, jsTrim_spec, fun _ => rfl, jsLowerChar_eq_toLower, ?_, ?_,
    ?_, ?_⟩
  · cases room with
    | zero => exact absurd hr (extract_zero _ _ _ _ _ _ _ _)
    | succ n =>
      rw [extractMarkdownFencesRecursive] at hr
      exact extractTokens_direct parse _ _ _ _ _ _ _ _ _ hr
  · intro size hdecr hroom
    exact extract_returns parse spreadFits room content filePath baseLine depth parentPath
      size hdecr hroom
  · intro t
    simp [isMarkdownFence]
  · intro fits recurse t ts hm
    exact extractTokens_cons_skip _ _ _ _ _ _ _ _ hm
  · decide
  · decide
  · decide
  · decide

/-- Witness of C2 on the sample file `c.md`, whose five fences are tagged
` MarkDown `, `MD`, `js`, `markdownx` and nothing: the blocks are those of the
first two fences, in order, with the trimmed info strings `MarkDown` and `MD`. -/
theorem extract_matches_markdown_fences_witness :
    extractMarkdownFences sampleParse sampleFiles sampleEngine "/repo/c.md" =
      Except.ok sampleMixedBlocks ∧
    sampleMixedBlocks.filter (fun B => B.depth == 0) =
      ((sampleParse sampleMixed).filter isMarkdownFence).map
        (blockInfoOf "/repo/c.md" 0 0 "") ∧
    ((sampleParse sampleMixed).map (fun t => (t.info, isMarkdownFence t)) =
      [(" MarkDown ", true), ("MD", true), ("js", false), ("markdownx", false), ("", false)]) :=
  ⟨rfl,
   (extract_matches_markdown_fences sampleParse sampleEngine.spreadFits sampleEngine.stackDepth
      sampleMixed "/repo/c.md" 0 0 "").1 sampleMixedBlocks rfl,
   by decide⟩

/-- C7.  Pre-order.  When extraction returns the list `r`: the block of every
chain of nested matching fences is in `r`; `r` is made of the blocks of the
matching fences of the document, in stream order, each directly followed by
the complete extraction of its own content and only then by the next one; and
at every position of `r` the block is directly followed by the complete
extraction of its own content (started at the block's line, one level deeper,
with the block's path), all of it deeper than the block, and the block after
that run is not deeper than it.  Extraction returns when the stack has room
beyond a measure that decreases along the nesting and the argument lists are
accepted. -/
theorem extract_depth_first_preorder (parse : String → List Token)
    (spreadFits : Nat → Nat → Bool) (room : Nat) (content filePath : String)
    (baseLine depth : Nat) (parentPath : String) :
    (∀ r, extractMarkdownFencesRecursive parse spreadFits room content filePath baseLine depth
        parentPath = Except.ok r →
      (∀ chain t, FenceChain parse (parse content) chain t →
        blockAt filePath baseLine depth parentPath chain t ∈ r) ∧
      BlocksOfStream parse filePath baseLine depth parentPath (parse content) r ∧
      (∀ pre B post, r = pre ++ B :: post →
        ∃ sub rest, post = sub ++ rest ∧ IsExtractionOf parse B sub ∧
          (∀ C ∈ sub, B.depth < C.depth) ∧
          (∀ C, rest.head? = some C → C.depth ≤ B.depth))) ∧
    (∀ size, NestingDecreases parse size → size content < room →
      ∃ r, extractMarkdownFencesRecursive parse (fun _ _ => true) room content filePath
          baseLine depth parentPath = Except.ok r ∧
        ((∀ k n, n ≤ r.length → spreadFits k n = true) →
          extractMarkdownFencesRecursive parse spreadFits room content filePath baseLine
            depth parentPath = Except.ok r)) := by
  refine ⟨fun r hr => ⟨?_, ?_, ?_⟩, ?_⟩
  · intro chain t hc
    exact extract_complete parse _ _ _ _ _ _ _ _ hr chain t hc
  · cases room with
    | zero => exact absurd hr (extract_zero _ _ _ _ _ _ _ _)
    | succ n =>
      rw [extractMarkdownFencesRecursive] at hr
      exact extractTokens_blocksOfStream parse _ _ _ _ _ _ _ _ _ hr
  · exact extract_preOrder parse _ _ _ _ _ _ _ _ hr
  · intro size hdecr hroom
    exact extract_returns parse spreadFits room content filePath baseLine depth parentPath
      size hdecr hroom

/-- Witness of C7 on the sample file `a.md`: extraction returns the outer block
followed by the inner block, and the inner block is the whole extraction of
the content of the outer one. -/
theorem extract_depth_first_preorder_witness :
    extractMarkdownFences sampleParse sampleFiles sampleEngine "/repo/a.md" =
      Except.ok [sampleOuterBlock, sampleInnerBlock] ∧
    IsExtractionOf sampleParse sampleOuterBlock [sampleInnerBlock] ∧
    IsExtractionOf sampleParse sampleInnerBlock [] := by
  have h := ((extract_depth_first_preorder sampleParse sampleEngine.spreadFits
    sampleEngine.stackDepth sampleRoot "/repo/a.md" 0 0 "").1
    [sampleOuterBlock, sampleInnerBlock] rfl).2.2
  refine ⟨rfl, ?_, ?_⟩
  · obtain ⟨sub, rest, hsplit, hsub, _, hhead⟩ := h [] sampleOuterBlock [sampleInnerBlock] rfl
    cases sub with
    | nil =>
      simp only [List.nil_append] at hsplit
      subst hsplit
      have := hhead sampleInnerBlock rfl
      exact absurd this (by decide)
    | cons x xs =>
      simp only [List.cons_append, List.cons.injEq] at hsplit
      obtain ⟨rfl, hrest⟩ := hsplit
      have hx : xs = [] := by
        cases xs with
        | nil => rfl
        | cons y ys => simp at hrest
      subst hx
      exact hsub
  · obtain ⟨sub, rest, hsplit, hsub, _, _⟩ := h [sampleOuterBlock] sampleInnerBlock [] rfl
    have hx : sub = [] := by
      cases sub with
      | nil => rfl
      | cons y ys => simp at hsplit
    subst hx
    exact hsub

/-- C8, counterexample.  Nothing stops the extraction at depth 50, and what
stops it in the end is not a per-file internal error.  On the sample engine the
document `deepDoc 52` (52 fences inside one another) is extracted in full, with
a block of depth 51.  The document `deepDoc 10000` needs more nested calls than
the stack of that engine has room for: its extraction throws the `RangeError`
of the engine, the run over `deep.md`, `flat.md` ends in the `catch` of `main`
with exit status 1, without `displayResults` and without a look at `flat.md`,
although the run over `flat.md` alone reports a finding. -/
theorem depth_bound_counterexample :
    (∃ r, extractMarkdownFencesRecursive deepParse sampleEngine.spreadFits
        sampleEngine.stackDepth (deepDoc 52) "/repo/deep52.md" 0 0 "" = Except.ok r ∧
      ∃ B ∈ r, B.depth = 51 ∧ 50 < B.depth) ∧
    extractMarkdownFences deepParse deepFiles sampleEngine "/repo/deep.md" =
      Except.error rangeError ∧
    main deepEnv sampleEngine [] ["/repo/deep.md", "/repo/flat.md"] =
      { exitCode := 1, displayed := none, caught := some rangeError,
        state := { totalBlocks := 0, allResults := [], checked := [] } } ∧
    ((main deepEnv sampleEngine [] ["/repo/flat.md"]).exitCode = 1 ∧
     (main deepEnv sampleEngine [] ["/repo/flat.md"]).caught = none ∧
     (main deepEnv sampleEngine [] ["/repo/flat.md"]).state.allResults.map
        (fun res => (res.filePath, res.line, res.blockIndex)) = [("flat.md", 1, 1)]) := by
  refine ⟨?_, deep_file_overflow, ?_, rfl, rfl, rfl⟩
  · obtain ⟨r, hr, B, hB, hd⟩ := deep_block sampleEngine.spreadFits 51 sampleEngine.stackDepth
      (by decide) (fun k m hm => by
        show decide (m ≤ 120000) = true
        exact decide_eq_true (by omega)) "/repo/deep52.md"
    exact ⟨r, hr, B, hB, hd, by omega⟩
  · rcases main_cases deepEnv sampleEngine [] ["/repo/deep.md", "/repo/flat.md"] with
      ⟨st, hp, _⟩ | ⟨thrown, hp, hm⟩
    · rw [deep_run_throws] at hp
      cases hp
    · rw [deep_run_throws] at hp
      cases hp
      exact hm

/-- C8, amended.  Extraction has no depth guard of its own, and its only
exception is the `RangeError` of the engine.  Whenever extraction returns, the
block of every chain of nested matching non-blank fences, of whatever length,
is in the result with depth start depth plus that length, and every returned
depth stays below the start depth plus the room of the call stack.  Extraction
returns when the stack has room beyond a measure that decreases along the
nesting and the argument lists are accepted.  When the extraction of one of the
files throws, the run ends in the `catch` of `main` with exit status 1 and
without `displayResults`, and the files after the failing one have no part in
the run. -/
theorem extract_depth_limited_by_engine_only (env : Env) (engine : Engine) (config : Config)
    (files : List String) (room : Nat) (content filePath : String) (baseLine depth : Nat)
    (parentPath : String) :
    (∀ r, extractMarkdownFencesRecursive env.parse engine.spreadFits room content filePath
        baseLine depth parentPath = Except.ok r →
      (∀ chain t, FenceChain env.parse (env.parse content) chain t →
        ∃ B ∈ r, B.depth = depth + chain.length ∧ B.content = t.content) ∧
      (∀ B ∈ r, depth ≤ B.depth ∧ B.depth < depth + room)) ∧
    (∀ message, extractMarkdownFencesRecursive env.parse engine.spreadFits room content
        filePath baseLine depth parentPath = Except.error message → message = rangeError) ∧
    (∀ size, NestingDecreases env.parse size → size content < room →
      ∃ r, extractMarkdownFencesRecursive env.parse (fun _ _ => true) room content filePath
          baseLine depth parentPath = Except.ok r ∧
        ((∀ k n, n ≤ r.length → engine.spreadFits k n = true) →
          extractMarkdownFencesRecursive env.parse engine.spreadFits room content filePath
            baseLine depth parentPath = Except.ok r)) ∧
    (∀ file ∈ files, ∀ message,
      extractMarkdownFences env.parse env.readFile engine file = Except.error message →
      (main env engine config files).exitCode = 1 ∧
      (main env engine config files).displayed = none ∧
      ∃ caught, (main env engine config files).caught = some caught) ∧
    (∀ before file after message, files = before ++ file :: after →
      extractMarkdownFences env.parse env.readFile engine file = Except.error message →
      main env engine config files = main env engine config (before ++ [file])) := by
  refine ⟨fun r hr => ⟨fun chain t hc => ?_, ?_⟩, ?_, ?_, ?_, ?_⟩
  · exact ⟨_, extract_complete env.parse _ _ _ _ _ _ _ _ hr chain t hc,
      blockAt_depth _ _ _ _ _ _, blockAt_content _ _ _ _ _ _⟩
  · exact extract_depth_bounds env.parse _ _ _ _ _ _ _ _ hr
  · exact extract_error env.parse _ _ _ _ _ _ _
  · intro size hdecr hroom
    exact extract_returns env.parse engine.spreadFits room content filePath baseLine depth
      parentPath size hdecr hroom
  · intro file hfile message hx
    rcases main_cases env engine config files with ⟨st, hp, _⟩ | ⟨thrown, _, hm⟩
    · have hall := (processFiles_ok_iff env engine config files _).1 ⟨st, hp⟩
      obtain ⟨blocks, hb, _⟩ := hall file hfile
      rw [hx] at hb
      cases hb
    · rw [hm]
      exact ⟨rfl, rfl, thrown.message, rfl⟩
  · intro before file after message hfiles hx
    subst hfiles
    unfold main
    rw [processFiles_stops_at_throw env engine config file message hx before after]

/-- Witness of the amended C8 on the sample file `a.md`: on the sample engine
extraction returns the two blocks, of depth 0 and 1; with room for two nested
calls only it throws, as the file needs three, and the run exits with status
1. -/
theorem extract_depth_limited_by_engine_only_witness :
    extractMarkdownFences sampleParse sampleFiles sampleEngine "/repo/a.md" =
      Except.ok [sampleOuterBlock, sampleInnerBlock] ∧
    (∀ B ∈ [sampleOuterBlock, sampleInnerBlock], 0 ≤ B.depth ∧ B.depth < 0 + 10000) ∧
    extractMarkdownFences sampleParse sampleFiles
      { stackDepth := 2, spreadFits := sampleEngine.spreadFits } "/repo/a.md" =
      Except.error rangeError ∧
    (main (sampleEnv sampleLint) { stackDepth := 2, spreadFits := sampleEngine.spreadFits } []
      ["/repo/a.md", "/repo/b.md"]).exitCode = 1 := by
  have h := extract_depth_limited_by_engine_only (sampleEnv sampleLint)
    { stackDepth := 2, spreadFits := sampleEngine.spreadFits } [] ["/repo/a.md", "/repo/b.md"]
    10000 sampleRoot "/repo/a.md" 0 0 ""
  exact ⟨rfl, (h.1 [sampleOuterBlock, sampleInnerBlock] rfl).2, rfl,
    (h.2.2.2.1 "/repo/a.md" (by simp) rangeError rfl).1⟩

/-! ## Reporting, configuration and verdict -/

/-- C3.  Line mapping at report time.  The first console line printed for a
finding starts with four blanks, the number `result.line + error.lineNumber`
and a colon; `displayResults` prints those lines for every finding of every
listed block.  On the sample file, whose line 2 opens a `markdown` fence whose
own line 2 opens an `md` fence, the run reports the inner block with line 4 and
depth 1 and prints the finding of its relative line 1 as line 5. -/
theorem displayed_line_is_block_line_plus_relative :
    (∀ (result : BlockResult) (error : LintError), ∃ tail,
      (errorLines result error).head? =
        some ("    " ++ toString (result.line + error.lineNumber) ++ ":" ++ tail)) ∧
    (∀ (allResults : List BlockResult) (result : BlockResult) (error : LintError),
      result ∈ allResults → error ∈ result.errors →
      ∀ l ∈ errorLines result error, l ∈ (displayResults allResults).1) ∧
    ((main (sampleEnv sampleLint) sampleEngine [] ["/repo/a.md"]).state.allResults.map
        (fun res => (res.line, res.depth, res.errors.map (fun e => e.lineNumber))),
      (main (sampleEnv sampleLint) sampleEngine [] ["/repo/a.md"]).displayed,
      (main (sampleEnv sampleLint) sampleEngine [] ["/repo/a.md"]).exitCode) =
      ([(4, 1, [1])],
        some (["\n" ++ colors.bold ++ colors.red ++ "Nested Markdown Linting Issues:" ++
                 colors.reset ++ "\n",
               colors.cyan ++ "File:" ++ colors.reset ++ " a.md",
               "  " ++ colors.yellow ++ "Code fence at line 4 " ++ colors.yellow ++ "[depth 1]" ++
                 colors.reset ++ " (md block #2) (line 2 > block at line 4):" ++ colors.reset,
               "    5:9 (nested line 1) " ++ colors.red ++ "MD009/no-trailing-spaces" ++
                 colors.reset ++ " Trailing spaces",
               "      " ++ colors.yellow ++ "Expected: 0 or 2; Actual: 1" ++ colors.reset,
               ""], true),
        1) := by
  refine ⟨?_, ?_, ?_⟩
  · intro result error
    refine ⟨toString (match error.errorRange with
        | some r => r.1
        | none => 1) ++
      (if result.depth > 0 then " (nested line " ++ toString error.lineNumber ++ ")" else "") ++
      " " ++ colors.red ++ String.intercalate "/" error.ruleNames ++ colors.reset ++ " " ++
      error.ruleDescription, ?_⟩
    unfold errorLines actualLineNumber
    cases error.errorDetail with
    | none => simp [String.append_assoc]
    | some detail =>
      by_cases hd : detail ≠ ""
      · simp [hd, String.append_assoc]
      · simp [hd, String.append_assoc]
  · intro allResults result error hres herr
    exact displayResults_mem allResults result hres error herr
  · rfl

/-! ### Rule configuration -/

/-- C4.  Forced-off rules.  The options handed to the checker carry the
content under the name `content` and the configuration `nestedConfigOf config`;
that configuration maps `MD041` and `MD051` to `false` and agrees with the base
configuration on every other key, whatever the base configuration says about
the two rules.  The base configuration is a value and stays what it was: every
checker call of a run gets the configuration derived from the same base. -/
theorem nested_config_forces_two_rules_off (lint : Checker) (content : String)
    (config : Config) :
    lintMarkdownContent lint content config =
      lint { strings := [("content", content)], config := nestedConfigOf config } ∧
    (nestedConfigOf config).get "MD041" = some (ConfigValue.bool false) ∧
    (nestedConfigOf config).get "MD051" = some (ConfigValue.bool false) ∧
    (∀ key, key ≠ "MD041" → key ≠ "MD051" →
      (nestedConfigOf config).get key = config.get key) ∧
    (∀ (env : Env) (engine : Engine) (files : List String),
      ∀ options ∈ (main env engine config files).state.checked,
        options.config = nestedConfigOf config) := by
  refine ⟨rfl, ?_, ?_, ?_, ?_⟩
  · unfold nestedConfigOf
    rw [config_get_set_other _ _ _ _ (by decide)]
    exact config_get_set_same _ _ _
  · exact config_get_set_same _ _ _
  · intro key h1 h2
    unfold nestedConfigOf
    rw [config_get_set_other _ _ _ _ h2, config_get_set_other _ _ _ _ h1]
  · intro env engine files options ho
    obtain ⟨_, _, _, _, _, _, _, rfl⟩ :=
      main_checked_from_blocks env engine config files options ho
    rfl

/-! ### Verdict -/

theorem throwingLint_no_findings (content : String) (config : Config) (lr : LintResults)
    (h : throwingLint (lintOptionsOf content config) = Except.ok lr) : errorsOf lr = [] := by
  unfold throwingLint lintOptionsOf at h
  split_ifs at h
  simp only [List.map_cons, List.map_nil, Except.ok.injEq] at h
  subst h
  rfl

theorem fromFiles_has_findings (env : Env) (engine : Engine) (config : Config)
    (files : List String) (res : BlockResult) (h : FromFiles env engine config files res) :
    res.errors.length ≠ 0 := by
  obtain ⟨_, _, _, _, _, _, lr, _, _, _, hpos, rfl⟩ := h
  simp only [blockResultOf]
  omega

/-- The run ends outside the `catch` of `main` exactly when nothing throws. -/
theorem main_caught_none_iff (env : Env) (engine : Engine) (config : Config)
    (files : List String) :
    (main env engine config files).caught = none ↔ NothingThrows env engine config files := by
  rw [← processFiles_ok_iff env engine config files
    { totalBlocks := 0, allResults := [], checked := [] }]
  rcases main_cases env engine config files with ⟨st, hp, hm⟩ | ⟨thrown, hp, hm⟩
  · rw [hm, hp]
    exact ⟨fun _ => ⟨st, rfl⟩, fun _ => rfl⟩
  · rw [hm, hp]
    constructor
    · intro h; cases h
    · rintro ⟨st2, h⟩; cases h

/-- C5, counterexample.  With a checker that reports a finding for the inner
sample block and throws on the outer one, the run over `b.md`, `a.md` collects a
finding from `b.md`, then throws in `a.md`: `displayResults` is never called
although a block produced a finding.  With a checker that throws and never
reports anything, the run over `a.md` exits with status 1 although no block
produced a finding. -/
theorem verdict_counterexample :
    ((main (sampleEnv outerThrowingLint) sampleEngine [] ["/repo/b.md", "/repo/a.md"]).displayed
        = none ∧
      (main (sampleEnv outerThrowingLint) sampleEngine [] ["/repo/b.md", "/repo/a.md"]).exitCode
        = 1 ∧
      ∃ res, FromFiles (sampleEnv outerThrowingLint) sampleEngine []
        ["/repo/b.md", "/repo/a.md"] res) ∧
    ((main (sampleEnv throwingLint) sampleEngine [] ["/repo/a.md"]).exitCode = 1 ∧
      ¬ ∃ res, FromFiles (sampleEnv throwingLint) sampleEngine [] ["/repo/a.md"] res) := by
  constructor
  · refine ⟨rfl, rfl, ?_⟩
    refine ⟨_, "/repo/b.md", by simp, sampleBlankBlocks, rfl, 1, _, [("content", [sampleError])],
      rfl, ?_, ?_, ?_, rfl⟩
    · decide
    · rfl
    · decide
  · refine ⟨rfl, ?_⟩
    rintro ⟨res, _, _, _, _, _, B, lr, _, _, hl, hpos, _⟩
    have := throwingLint_no_findings B.content [] lr hl
    rw [this] at hpos
    simp at hpos

/-- C5, amended.  Nothing throws in a run exactly when the run ends outside the
`catch` of `main`.  In that case the run ends through `displayResults`, and
`displayResults` returns true with exit status 1 exactly when some non-blank
block of some file got at least one finding from the checker; otherwise (blocks
without findings, or no blocks) `displayResults` returns false and the exit
status is 0.  When something throws (a checker call, or the extraction through
the `RangeError` of the engine), the run ends in the `catch`: the exit status
is 1 and `displayResults` is not called, whether or not a block got a finding.
The value returned by `displayResults` is true exactly when a listed record has
a finding. -/
theorem verdict_failed_iff_finding (env : Env) (engine : Engine) (config : Config)
    (files : List String) :
    (NothingThrows env engine config files ↔ (main env engine config files).caught = none) ∧
    ((main env engine config files).caught = none →
      (main env engine config files).displayed =
        some (displayResults (main env engine config files).state.allResults) ∧
      (((main env engine config files).displayed.map Prod.snd = some true ∧
          (main env engine config files).exitCode = 1) ↔
        ∃ res, FromFiles env engine config files res) ∧
      ((¬ ∃ res, FromFiles env engine config files res) →
        (main env engine config files).displayed.map Prod.snd = some false ∧
        (main env engine config files).exitCode = 0)) ∧
    (∀ message, (main env engine config files).caught = some message →
      (main env engine config files).exitCode = 1 ∧
      (main env engine config files).displayed = none) ∧
    (∀ allResults : List BlockResult, (displayResults allResults).2 = true ↔
      ∃ res ∈ allResults, res.errors.length ≠ 0) := by
  refine ⟨(main_caught_none_iff env engine config files).symm, ?_, ?_,
    displayResults_hasErrors⟩
  · intro hnone
    rcases main_cases env engine config files with ⟨st, hp, hm⟩ | ⟨thrown, _, hm⟩
    · have hiff : (displayResults st.allResults).2 = true ↔
          ∃ res, FromFiles env engine config files res := by
        rw [displayResults_hasErrors]
        constructor
        · rintro ⟨res, hres, _⟩
          have := processFiles_results_sound env engine config files
            { totalBlocks := 0, allResults := [], checked := [] } res
          rw [hp] at this
          rcases this hres with h1 | h1
          · simp at h1
          · exact ⟨res, h1⟩
        · rintro ⟨res, hres⟩
          exact ⟨res, (processFiles_results_complete env engine config files _ st hp).2 res hres,
            fromFiles_has_findings env engine config files res hres⟩
      rw [hm]
      refine ⟨rfl, ?_, ?_⟩
      · rw [← hiff]
        cases hb : (displayResults st.allResults).2 <;> simp [hb]
      · intro hno
        rw [← hiff] at hno
        cases hb : (displayResults st.allResults).2
        · simp [hb]
        · exact absurd hb hno
    · rw [hm] at hnone
      cases hnone
  · intro message hmsg
    rcases main_cases env engine config files with ⟨st, _, hm⟩ | ⟨thrown, _, hm⟩
    · rw [hm] at hmsg
      cases hmsg
    · rw [hm]
      exact ⟨rfl, rfl⟩

/-- Witness of the amended C5: in the sample run over `a.md` with the sample
checker nothing throws, a block has a finding, and the run fails through
`displayResults`; in the run over `c.md` nothing throws, no block has a
finding, and the run passes. -/
theorem verdict_failed_iff_finding_witness :
    (NothingThrows (sampleEnv sampleLint) sampleEngine [] ["/repo/a.md"] ∧
      (∃ res, FromFiles (sampleEnv sampleLint) sampleEngine [] ["/repo/a.md"] res) ∧
      (main (sampleEnv sampleLint) sampleEngine [] ["/repo/a.md"]).displayed.map Prod.snd
        = some true ∧
      (main (sampleEnv sampleLint) sampleEngine [] ["/repo/a.md"]).exitCode = 1) ∧
    (NothingThrows (sampleEnv sampleLint) sampleEngine [] ["/repo/c.md"] ∧
      (¬ ∃ res, FromFiles (sampleEnv sampleLint) sampleEngine [] ["/repo/c.md"] res) ∧
      (main (sampleEnv sampleLint) sampleEngine [] ["/repo/c.md"]).state.totalBlocks = 2 ∧
      (main (sampleEnv sampleLint) sampleEngine [] ["/repo/c.md"]).displayed.map Prod.snd
        = some false ∧
      (main (sampleEnv sampleLint) sampleEngine [] ["/repo/c.md"]).exitCode = 0) := by
  have ha := verdict_failed_iff_finding (sampleEnv sampleLint) sampleEngine [] ["/repo/a.md"]
  have hc := verdict_failed_iff_finding (sampleEnv sampleLint) sampleEngine [] ["/repo/c.md"]
  refine ⟨⟨ha.1.2 rfl, ((ha.2.1 rfl).2.1).1 ⟨rfl, rfl⟩, rfl, rfl⟩,
    ⟨hc.1.2 rfl, ?_, rfl, rfl, rfl⟩⟩
  intro hres
  have := ((hc.2.1 rfl).2.1).2 hres
  exact absurd this.2 (by decide)

/-! ### Blank blocks -/

/-- C6.  Blank fences.  In every run: every content handed to the checker is
non-blank, and every record of the aggregated results comes from a non-blank
block of one of the files.  For every file whose extraction returns: the list
holds the block of every matching fence of the file and of every chain of
nested matching fences, blank or not; in it a
blank block is never followed by a deeper block (it has no children); and in
the block loop over it no record carries the index of a blank block.  In the
token loop a matching fence with blank content adds its own block and nothing
else, whatever the recursive call would return. -/
theorem blank_fence_emitted_not_linted (env : Env) (engine : Engine) (config : Config)
    (files : List String) :
    (∀ options ∈ (main env engine config files).state.checked,
      ∀ p ∈ options.strings, hasNonBlankText p.2 = true) ∧
    (∀ res ∈ (main env engine config files).state.allResults,
      FromFiles env engine config files res) ∧
    (∀ file ∈ files, ∀ blocks,
      extractMarkdownFences env.parse env.readFile engine file = Except.ok blocks →
      (∀ content, env.readFile file = some content →
        (∀ t ∈ env.parse content, isMarkdownFence t = true →
          blockInfoOf file 0 0 "" t ∈ blocks) ∧
        (∀ chain t, FenceChain env.parse (env.parse content) chain t →
          blockAt file 0 0 "" chain t ∈ blocks)) ∧
      (∀ pre B post, blocks = pre ++ B :: post → hasNonBlankText B.content = false →
        ∀ C, post.head? = some C → C.depth ≤ B.depth) ∧
      (∀ (st : RunState) (i : Nat) (B : Block), blocks[i]? = some B →
        hasNonBlankText B.content = false →
        ∀ res ∈ (finalState (lintBlocks env.lint config (env.relative file) 0 blocks
            st)).allResults, res ∈ st.allResults ∨ res.blockIndex ≠ i + 1)) ∧
    (∀ (fits : Nat → Bool)
        (recurse : String → String → Nat → Nat → String → Except String (List Block))
        (filePath : String) (baseLine depth : Nat) (parentPath : String) (t : Token)
        (ts : List Token), isMarkdownFence t = true → hasNonBlankText t.content = false →
      extractTokens fits recurse filePath baseLine depth parentPath (t :: ts) =
        Except.map (fun more => blockInfoOf filePath baseLine depth parentPath t :: more)
          (extractTokens fits recurse filePath baseLine depth parentPath ts)) := by
  refine ⟨?_, main_results_from_files env engine config files, ?_, ?_⟩
  · intro options hopt p hp
    obtain ⟨_, _, _, _, B, _, hnb, rfl⟩ :=
      main_checked_from_blocks env engine config files options hopt
    simp only [lintOptionsOf, List.mem_singleton] at hp
    subst hp
    exact hnb
  · intro file _ blocks hx
    refine ⟨?_, ?_, ?_⟩
    · intro content hread
      unfold extractMarkdownFences at hx
      rw [hread] at hx
      exact ⟨fun t ht hm =>
          extract_complete env.parse _ _ _ _ _ _ _ _ hx [] t (FenceChain.direct ht hm),
        fun chain t hc => extract_complete env.parse _ _ _ _ _ _ _ _ hx chain t hc⟩
    · intro pre B post hsplit hblank C hC
      have hpre : PreOrder env.parse blocks := by
        unfold extractMarkdownFences at hx
        cases hread : env.readFile file with
        | none =>
          rw [hread] at hx
          cases hx
          exact preOrder_nil _
        | some content =>
          rw [hread] at hx
          exact extract_preOrder env.parse _ _ _ _ _ _ _ _ hx
      obtain ⟨sub, rest, hpost, hsub, _, hhead⟩ := hpre pre B post hsplit
      have hnil := hsub.2 hblank
      subst hnil
      rw [List.nil_append] at hpost
      subst hpost
      exact hhead C hC
    · intro st i B hi hb
      exact lintBlocks_blank_index env.lint config (env.relative file) blocks st i B hi hb
  · intro fits recurse filePath baseLine depth parentPath t ts hm hb
    exact extractTokens_cons_blank fits recurse filePath baseLine depth parentPath t ts hm hb

/-- Witness of C6: the sample run over `b.md`, whose first fence is blank.  The
extraction returns both blocks, the blank one first; the run counts two blocks,
hands only the second one to the checker, and the only record is that of the
second block. -/
theorem blank_fence_emitted_not_linted_witness :
    extractMarkdownFences sampleParse sampleFiles sampleEngine "/repo/b.md" =
      Except.ok sampleBlankBlocks ∧
    sampleBlankBlocks.map (fun B => (B.line, hasNonBlankText B.content)) =
      [(1, false), (4, true)] ∧
    (main (sampleEnv sampleLint) sampleEngine [] ["/repo/b.md"]).state.totalBlocks = 2 ∧
    (main (sampleEnv sampleLint) sampleEngine [] ["/repo/b.md"]).state.checked =
      [lintOptionsOf sampleInner []] ∧
    (main (sampleEnv sampleLint) sampleEngine [] ["/repo/b.md"]).state.allResults.map
      (fun res => res.line) = [4] ∧
    (∀ options ∈ (main (sampleEnv sampleLint) sampleEngine [] ["/repo/b.md"]).state.checked,
      ∀ p ∈ options.strings, hasNonBlankText p.2 = true) ∧
    (∀ res ∈ (main (sampleEnv sampleLint) sampleEngine [] ["/repo/b.md"]).state.allResults,
      FromFiles (sampleEnv sampleLint) sampleEngine [] ["/repo/b.md"] res) := by
  have h := blank_fence_emitted_not_linted (sampleEnv sampleLint) sampleEngine []
    ["/repo/b.md"]
  exact ⟨rfl, by decide, rfl, rfl, rfl, h.1, h.2.1⟩

/-! ### A throwing checker -/

/-- A run in which some checker call would throw ends in the `catch`. -/
theorem main_caught_of_throw (env : Env) (engine : Engine) (config : Config)
    (files : List String)
    (h : ∃ file ∈ files, ∃ blocks,
      extractMarkdownFences env.parse env.readFile engine file = Except.ok blocks ∧
      ∃ B ∈ blocks, hasNonBlankText B.content = true ∧
        ∃ message, env.lint (lintOptionsOf B.content config) = Except.error message) :
    ∃ message, (main env engine config files).caught = some message := by
  cases hc : (main env engine config files).caught with
  | some message => exact ⟨message, rfl⟩
  | none =>
    have hall := (main_caught_none_iff env engine config files).1 hc
    obtain ⟨file, hfile, blocks, hx, B, hB, hnb, message, hl⟩ := h
    obtain ⟨blocks2, hx2, hcalls⟩ := hall file hfile
    rw [hx] at hx2
    cases hx2
    obtain ⟨lr, hlr⟩ := hcalls B hB hnb
    rw [hl] at hlr
    cases hlr

/-- C9, counterexample.  With a checker that throws on the outer sample block,
the run over `a.md`, `b.md` stops at the first checker call: the exception is
caught, the exit status is 1, `displayResults` is not called, nothing is
recorded for the block, and neither the inner block of `a.md` nor any block of
`b.md` is handed to the checker, although the checker has a finding for them. -/
theorem checker_failure_counterexample :
    main (sampleEnv outerThrowingLint) sampleEngine [] ["/repo/a.md", "/repo/b.md"] =
      { exitCode := 1
        displayed := none
        caught := some "checker failed"
        state := { totalBlocks := 2, allResults := [],
                   checked := [lintOptionsOf sampleOuter []] } } ∧
    outerThrowingLint (lintOptionsOf sampleInner []) = Except.ok [("content", [sampleError])] ∧
    lintOptionsOf sampleInner [] ∉ [lintOptionsOf sampleOuter []] := by
  refine ⟨rfl, rfl, ?_⟩
  decide

/-- C9, amended.  A checker failure aborts the run.  If the checker throws for
some non-blank block of some file, the run ends in the `catch` of `main`.  A
checker call of the run that threw is the last checker call made, all calls
before it returned, and its message is the one caught.  Whenever the run ends
in the `catch`, the exit status is 1 and `displayResults` is not called, and
either the last checker call threw the caught message, or every checker call
returned and the extraction of one of the files threw it.  When the run does
not end there, `displayResults` is called on the collected records and every
checker call returned.  Every record comes from a block for which the checker
returned findings: nothing is recorded for a block whose check threw. -/
theorem checker_failure_aborts_run (env : Env) (engine : Engine) (config : Config)
    (files : List String) :
    ((∃ file ∈ files, ∃ blocks,
        extractMarkdownFences env.parse env.readFile engine file = Except.ok blocks ∧
        ∃ B ∈ blocks, hasNonBlankText B.content = true ∧
          ∃ message, env.lint (lintOptionsOf B.content config) = Except.error message) →
      ∃ message, (main env engine config files).caught = some message) ∧
    (∀ options ∈ (main env engine config files).state.checked, ∀ message,
      env.lint options = Except.error message →
      (main env engine config files).caught = some message ∧
      ThrowTrace env.lint message (main env engine config files).state.checked ∧
      (main env engine config files).state.checked.getLast? = some options) ∧
    (∀ message, (main env engine config files).caught = some message →
      (main env engine config files).exitCode = 1 ∧
      (main env engine config files).displayed = none ∧
      (ThrowTrace env.lint message (main env engine config files).state.checked ∨
        (CleanTrace env.lint (main env engine config files).state.checked ∧
          ∃ file ∈ files, extractMarkdownFences env.parse env.readFile engine file
            = Except.error message))) ∧
    ((main env engine config files).caught = none →
      (main env engine config files).displayed =
        some (displayResults (main env engine config files).state.allResults) ∧
      CleanTrace env.lint (main env engine config files).state.checked) ∧
    (∀ res ∈ (main env engine config files).state.allResults,
      FromFiles env engine config files res) := by
  have hclean : CleanTrace env.lint
      ({ totalBlocks := 0, allResults := [], checked := [] } : RunState).checked := by
    intro x hx
    simp at hx
  have htrace := processFiles_trace env engine config files _ hclean
  have hcaught : ∀ message, (main env engine config files).caught = some message →
      (main env engine config files).exitCode = 1 ∧
      (main env engine config files).displayed = none ∧
      (ThrowTrace env.lint message (main env engine config files).state.checked ∨
        (CleanTrace env.lint (main env engine config files).state.checked ∧
          ∃ file ∈ files, extractMarkdownFences env.parse env.readFile engine file
            = Except.error message)) := by
    intro message hmsg
    rcases main_cases env engine config files with ⟨st, _, hm⟩ | ⟨thrown, hp, hm⟩
    · rw [hm] at hmsg
      cases hmsg
    · rw [hm] at hmsg ⊢
      simp only [Option.some.injEq] at hmsg
      subst hmsg
      exact ⟨rfl, rfl, htrace.2 thrown hp⟩
  have hnone : (main env engine config files).caught = none →
      (main env engine config files).displayed =
        some (displayResults (main env engine config files).state.allResults) ∧
      CleanTrace env.lint (main env engine config files).state.checked := by
    intro hn
    rcases main_cases env engine config files with ⟨st, hp, hm⟩ | ⟨thrown, _, hm⟩
    · rw [hm]
      exact ⟨rfl, htrace.1 st hp⟩
    · rw [hm] at hn
      cases hn
  refine ⟨main_caught_of_throw env engine config files, ?_, hcaught, hnone,
    main_results_from_files env engine config files⟩
  intro options hopt message hl
  have hnotclean : ¬ CleanTrace env.lint (main env engine config files).state.checked := by
    intro hc
    obtain ⟨lr, hlr⟩ := hc options hopt
    rw [hl] at hlr
    cases hlr
  cases hc : (main env engine config files).caught with
  | none => exact absurd (hnone hc).2 hnotclean
  | some caught =>
    rcases (hcaught caught hc).2.2 with htr | ⟨hcl, _⟩
    · obtain ⟨earlier, last, hsplit, hlast, hearlier⟩ := htr
      have hmem : options ∈ earlier ++ [last] := by rw [← hsplit]; exact hopt
      simp only [List.mem_append, List.mem_singleton] at hmem
      rcases hmem with hmem | rfl
      · obtain ⟨lr, hlr⟩ := hearlier options hmem
        rw [hl] at hlr
        cases hlr
      · rw [hl] at hlast
        simp only [Except.error.injEq] at hlast
        subst hlast
        refine ⟨rfl, ⟨earlier, options, hsplit, hl, hearlier⟩, ?_⟩
        rw [hsplit]
        simp
    · exact absurd hcl hnotclean

/-- Witness of the amended C9: the sample run over `a.md`, `b.md` with the
checker that throws on the inner block ends in the `catch` after two checker
calls, the second of which threw. -/
theorem checker_failure_aborts_run_witness :
    main (sampleEnv throwingLint) sampleEngine [] ["/repo/a.md", "/repo/b.md"] =
      { exitCode := 1
        displayed := none
        caught := some "checker failed"
        state := { totalBlocks := 2, allResults := [],
                   checked := [lintOptionsOf sampleOuter [], lintOptionsOf sampleInner []] } } ∧
    ThrowTrace throwingLint "checker failed"
      (main (sampleEnv throwingLint) sampleEngine [] ["/repo/a.md", "/repo/b.md"]).state.checked :=
  ⟨rfl,
   ((checker_failure_aborts_run (sampleEnv throwingLint) sampleEngine []
      ["/repo/a.md", "/repo/b.md"]).2.1 (lintOptionsOf sampleInner []) (by decide)
      "checker failed" rfl).2.1⟩

/-! ### Block index -/

/-- C10, counterexample.  In the sample file `b.md` the first fence is blank
and the second is not; the record of the second block carries block index 2,
while its position among the non-blank blocks is 1. -/
theorem block_index_counterexample :
    (main (sampleEnv sampleLint) sampleEngine [] ["/repo/b.md"]).state.allResults.map
        (fun res => (res.line, res.blockIndex)) = [(4, 2)] ∧
    extractMarkdownFences sampleParse sampleFiles sampleEngine "/repo/b.md" =
      Except.ok sampleBlankBlocks ∧
    sampleBlankBlocks.map (fun B => (B.line, hasNonBlankText B.content)) =
      [(1, false), (4, true)] ∧
    nonBlankPosition sampleBlankBlocks 1 = 1 := by
  refine ⟨rfl, rfl, ?_, ?_⟩
  · decide
  · decide

/-- C10, amended.  The block index of a record is the 1-based position of its
block in the file's full extracted block list, blank blocks included.  Every
record of a run comes from a non-blank block `B` at some position `i` of the
block list of one of the files, with block index `i + 1`, which is the position
among the non-blank blocks plus the number of blank blocks before `B`; and when
the run does not end in the `catch`, every non-blank block at position `i` for
which the checker returned a finding has its record, with block index
`i + 1`. -/
theorem block_index_is_list_position (env : Env) (engine : Engine) (config : Config)
    (files : List String) :
    (∀ res ∈ (main env engine config files).state.allResults, ∃ file ∈ files, ∃ blocks i B,
      extractMarkdownFences env.parse env.readFile engine file = Except.ok blocks ∧
      blocks[i]? = some B ∧ hasNonBlankText B.content = true ∧
      res.blockIndex = i + 1 ∧
      res.blockIndex = nonBlankPosition blocks i + blankBefore blocks i ∧
      res.filePath = env.relative file ∧ res.line = B.line ∧ res.depth = B.depth ∧
      res.info = B.info ∧ res.parentPath = B.parentPath) ∧
    ((main env engine config files).caught = none →
      ∀ file ∈ files, ∀ blocks i B lr,
        extractMarkdownFences env.parse env.readFile engine file = Except.ok blocks →
        blocks[i]? = some B → hasNonBlankText B.content = true →
        env.lint (lintOptionsOf B.content config) = Except.ok lr → 0 < (errorsOf lr).length →
        ∃ res ∈ (main env engine config files).state.allResults,
          res = blockResultOf (env.relative file) i B (errorsOf lr) ∧
          res.blockIndex = i + 1) := by
  constructor
  · intro res hres
    obtain ⟨file, hfile, blocks, hx, i, B, lr, hi, hnb, _, _, rfl⟩ :=
      main_results_from_files env engine config files res hres
    exact ⟨file, hfile, blocks, i, B, hx, hi, hnb, rfl,
      index_eq_nonBlankPosition_add blocks i B hi hnb, rfl, rfl, rfl, rfl, rfl⟩
  · intro hnone file hfile blocks i B lr hx hi hnb hl hpos
    rcases main_cases env engine config files with ⟨st, hp, hm⟩ | ⟨thrown, _, hm⟩
    · refine ⟨_, ?_, rfl, rfl⟩
      rw [hm]
      exact (processFiles_results_complete env engine config files _ st hp).2 _
        ⟨file, hfile, blocks, hx, i, B, lr, hi, hnb, hl, hpos, rfl⟩
    · rw [hm] at hnone
      cases hnone

/-- Witness of the amended C10: in the sample run over `b.md` the only record
is that of the second block of the list, with block index 2. -/
theorem block_index_is_list_position_witness :
    extractMarkdownFences sampleParse sampleFiles sampleEngine "/repo/b.md" =
      Except.ok sampleBlankBlocks ∧
    (main (sampleEnv sampleLint) sampleEngine [] ["/repo/b.md"]).state.allResults.map
      (fun res => (res.line, res.blockIndex)) = [(4, 2)] ∧
    ∀ res ∈ (main (sampleEnv sampleLint) sampleEngine [] ["/repo/b.md"]).state.allResults,
      ∃ file ∈ ["/repo/b.md"], ∃ blocks i B,
        extractMarkdownFences sampleParse sampleFiles sampleEngine file = Except.ok blocks ∧
        blocks[i]? = some B ∧ res.blockIndex = i + 1 ∧ res.line = B.line := by
  refine ⟨rfl, rfl, fun res hres => ?_⟩
  obtain ⟨file, hfile, blocks, i, B, hx, hi, _, hidx, _, _, hline, _⟩ :=
    (block_index_is_list_position (sampleEnv sampleLint) sampleEngine [] ["/repo/b.md"]).1
      res hres
  exact ⟨file, hfile, blocks, i, B, hx, hi, hidx, hline⟩

end NestedMarkdown
